import Mathlib

/-!
Verification development for the query-criteria compiler and relation-graph
serializer of a REST framework (source files `query.py` and `serialize.py`).

The embedding is shallow: Python values decoded from JSON become the `JVal`
inductive; Python dicts become association lists with Python-dict update
semantics (replace in place, append when new); functions that can raise
become `Except String` computations; SQLAlchemy clause elements become the
`Expr` inductive, with `and_`/`or_` mirroring SQLAlchemy's
`BooleanClauseList._construct` collapse of a single clause to itself, and
`self_group` (pure SQL-rendering parenthesisation) as the identity on the
tree.  The mutually recursive compiler functions recurse on an explicit
fuel argument (the Python originals recurse on criteria documents that are
locally rebuilt, e.g. the dotted-chain right-fold, so the recursion is not
structural); fuel exhaustion is a distinguished error that corresponds to
no Python behaviour, and theorems are stated so that fuel consumption on
both sides of an equation coincides.
-/

namespace TRF


/-- Decoded JSON value (the shape `query.py` and `serialize.py` receive:
`None`, booleans, numbers, strings, lists, dicts). -/
inductive JVal : Type where
  | null : JVal
  | bool (b : Bool) : JVal
  | int (n : Int) : JVal
  | str (s : String) : JVal
  | arr (items : List JVal) : JVal
  | obj (entries : List (String × JVal)) : JVal

/-- A Python dict with string keys, as an insertion-ordered association
list (Python 3.7+ dicts preserve insertion order). -/
abbrev AList := List (String × JVal)

/-- Python `d.get(k)` / `d[k]` lookup: first entry with the key. -/
def dget (d : AList) (k : String) : Option JVal :=
  match d with
  | [] => none
  | (k', v) :: rest => if k' = k then some v else dget rest k

/-- Python `d[k] = v`: replace in place when the key exists, append otherwise
(Python dict update keeps the original insertion position). -/
def dset (d : AList) (k : String) (v : JVal) : AList :=
  match d with
  | [] => [(k, v)]
  | (k', v') :: rest => if k' = k then (k, v) :: rest else (k', v') :: dset rest k v

/-- Python `d.pop(k)` with the key present: remove the entry.  (The caller checks
presence; Python raises `KeyError` otherwise, which the embedding surfaces
as an `Except` error at the call site.) -/
def dpop (d : AList) (k : String) : AList :=
  match d with
  | [] => []
  | (k', v') :: rest => if k' = k then rest else (k', v') :: dpop rest k

/-- Python truthiness of a decoded JSON value (`bool(x)`). -/
def truthy : JVal → Bool
  | .null => false
  | .bool b => b
  | .int n => n ≠ 0
  | .str s => s ≠ ""
  | .arr l => !l.isEmpty
  | .obj l => !l.isEmpty

/-- Full `split('.')` on a character list: full split at every separator.
`[] ↦ [[]]`, matching Python `"".split('.') == ['']`. -/
def splitChars (sep : Char) : List Char → List (List Char)
  | [] => [[]]
  | c :: rest =>
    if c = sep then [] :: splitChars sep rest
    else
      match splitChars sep rest with
      | [] => [[c]]
      | g :: gs => (c :: g) :: gs

/-- Python `s.split('.')`. -/
def splitDots (s : String) : List String :=
  (splitChars '.' s.data).map String.mk

/-- Python `s.split('.', 1)`: `none` when there is no dot, otherwise the
part before the first dot and the rest. -/
def splitFirstDot : List Char → Option (List Char × List Char)
  | [] => none
  | c :: rest =>
    if c = '.' then some ([], rest)
    else (splitFirstDot rest).map (fun p => (c :: p.1, p.2))

/-- A path segment: a string without dots. -/
def noDot (s : String) : Prop := '.' ∉ s.data

instance (s : String) : Decidable (noDot s) := by unfold noDot; infer_instance

/-- Join segments with dots (the inverse image of `splitDots` on dot-free
segments). -/
def dotted : List String → String
  | [] => ""
  | [f] => f
  | f :: rest => f ++ "." ++ dotted rest

theorem sizeOf_dget {d : AList} {k : String} {v : JVal} (h : dget d k = some v) :
    sizeOf v < sizeOf d := by
  induction d with
  | nil => simp [dget] at h
  | cons hd tl ih =>
    obtain ⟨k0, v0⟩ := hd
    simp only [dget] at h
    by_cases h0 : k0 = k
    · rw [if_pos h0] at h
      cases h
      simp only [List.cons.sizeOf_spec, Prod.mk.sizeOf_spec]
      omega
    · rw [if_neg h0] at h
      have := ih h
      simp only [List.cons.sizeOf_spec, Prod.mk.sizeOf_spec]
      omega

/-- Python `==` on decoded JSON values. -/
def pyEq : JVal → JVal → Bool
  | .null, .null => true
  | .bool a, .bool b => a == b
  | .int a, .int b => a == b
  | .str a, .str b => a == b
  | .arr a, .arr b =>
      a.length == b.length &&
      (a.zip b).attach.all (fun ⟨⟨x, y⟩, _⟩ => pyEq x y)
  | .obj a, .obj b =>
      (a.map Prod.fst ++ b.map Prod.fst).all (fun k =>
        match h1 : dget a k, h2 : dget b k with
        | some v, some w => pyEq v w
        | none, none => true
        | some _, none => false
        | none, some _ => false)
  | _, _ => false
termination_by a b => sizeOf a + sizeOf b
decreasing_by
  · rename_i hmem
    have hz := List.of_mem_zip hmem
    have hx := List.sizeOf_lt_of_mem hz.1
    have hy := List.sizeOf_lt_of_mem hz.2
    simp only [JVal.arr.sizeOf_spec]
    omega
  · have hv := sizeOf_dget h1
    have hw := sizeOf_dget h2
    simp only [JVal.obj.sizeOf_spec]
    omega

/-- Python `==` on two dicts. -/
def dictEq (a b : AList) : Bool := pyEq (.obj a) (.obj b)

/-- Python `==` on two `Optional` values (`None == None` is `True`,
`None == x` is `False` for non-`None` `x`). -/
def optPyEq : Option JVal → Option JVal → Bool
  | none, none => true
  | some a, some b => pyEq a b
  | _, _ => false

/-! ### Schema descriptor and resolved attributes

`query.py` works against SQLAlchemy mapped classes via `getattr` and
attribute `property` introspection.  The schema descriptor maps a class
name and attribute name to the attribute's kind. -/

/-- SQLAlchemy relationship direction symbols. -/
inductive Dir : Type where
  | manytoone | onetomany | manytomany
deriving DecidableEq, Repr

/-- What a class attribute resolves to. -/
inductive AttrKind : Type where
  | column : AttrKind
  | rel (dir : Dir) (target : String) : AttrKind
deriving DecidableEq, Repr

/-- Read-only schema reflection: class name → attribute name → kind
(`none` models `getattr` raising `AttributeError`). -/
def Schema : Type := String → String → Option AttrKind

/-- A resolved attribute as passed around by `get_attribute_filter_expr`:
an instrumented column attribute, an instrumented relationship attribute,
or a bare scalar `ColumnElement` (the related-row count built by
`length_operator`).  Association proxies (derived relationships) are not
modelled; no claim exercises them, and on plain relationships the
`$any`/`$all`/`$length` table embedded below is the one dispatched. -/
inductive Attrib : Type where
  | col (cls key : String) : Attrib
  | rel (cls key : String) (dir : Dir) (target : String) : Attrib
  | countOf (key : String) : Attrib
deriving DecidableEq, Repr

/-- Python `getattr(model_class, name)`. -/
def pygetattr (sc : Schema) (cls name : String) : Except String Attrib :=
  match sc cls name with
  | some .column => .ok (.col cls name)
  | some (.rel d t) => .ok (.rel cls name d t)
  | none => .error ("AttributeError: " ++ cls ++ "." ++ name)

/-! ### Expression trees

The SQLAlchemy clause elements that `query.py` constructs.  `and_`/`or_`
mirror `BooleanClauseList._construct`: no clauses yield the neutral
element, a single clause is returned as itself (`self_group`, which is
pure SQL-rendering parenthesisation, is the identity on the tree). -/

inductive Expr : Type where
  | prim (op : String) (attr : Attrib) (operand : JVal) : Expr
  | anyE (relKey : String) (sub : Expr) : Expr
  | notE (sub : Expr) : Expr
  | andE (subs : List Expr) : Expr
  | orE (subs : List Expr) : Expr
  | existsE (relKey : String) (target : String) (sub : Expr) : Expr

def and_ : List Expr → Expr
  | [e] => e
  | es => .andE es

def or_ : List Expr → Expr
  | [e] => e
  | es => .orE es

def not_ (e : Expr) : Expr := .notE e

/-! ### Operator tables (`query.py` lines 14-65) -/

def primOpNames : List String :=
  ["$eq", "$ne", "$lt", "$lte", "$gt", "$gte", "$in", "$nin", "$like"]

def relOpNames : List String := ["$any", "$all", "$length"]

def logicalOpNames : List String := ["$or", "$and", "$not"]

def isPrimOp (op : String) : Bool := decide (op ∈ primOpNames)

def isRelOp (op : String) : Bool := decide (op ∈ relOpNames)

def isLogicalOp (op : String) : Bool := decide (op ∈ logicalOpNames)

/-- Any fixed operator token of the three tables. -/
def isOpToken (op : String) : Bool := isPrimOp op || isRelOp op || isLogicalOp op

/-! ### The filter-expression compiler (`query.py` lines 27-174) -/

/-- Python `criteria.items()`: fails (`AttributeError`) unless the value is a
dict. -/
def asObj : JVal → Except String (List (String × JVal))
  | .obj kvs => .ok kvs
  | _ => .error "AttributeError: items"

/-- Python `for item in operand` iteration.  Lists yield their elements,
dicts their keys, strings their characters; other scalars raise
`TypeError`. -/
def asIter : JVal → Except String (List JVal)
  | .arr l => .ok l
  | .obj kvs => .ok (kvs.map (fun kv => JVal.str kv.1))
  | .str s => .ok (s.data.map (fun c => JVal.str (String.mk [c])))
  | _ => .error "TypeError: not iterable"

/-- Effectful map over a list, stopping at the first error (Python's
eager evaluation order inside `and_(fn(item) for item in clauses)`). -/
def exceptMap {α β : Type} (f : α → Except String β) : List α → Except String (List β)
  | [] => .ok []
  | x :: xs => do
    let y ← f x
    let ys ← exceptMap f xs
    pure (y :: ys)

/-- Fuel-exhaustion marker (no Python counterpart; theorems keep fuel
consumption aligned on both sides of every equation). -/
def fuelMsg : String := "fuel exhausted"

/-- Python `operand if isinstance(operand, dict) else {'$eq': operand}`
(`query.py` lines 121-124 and 161-164). -/
def objOrEq (v : JVal) : JVal :=
  match v with
  | .obj _ => v
  | _ => JVal.obj [("$eq", v)]

mutual

/-- One `for op, operand in criteria.items()` iteration of
`get_filter_expr` (`query.py` lines 147-172). -/
def gfeEntry (sc : Schema) (model : String) (f : Nat) (op : String) (operand : JVal) :
    Except String Expr :=
  if isPrimOp op || isRelOp op then
    .error ("ValueError: cant use operator " ++ op ++ " on the top level")
  else if op = "$or" then do
    let items ← asIter operand
    let es ← exceptMap (fun item => get_filter_expr sc model f item) items
    pure (or_ es)
  else if op = "$and" then do
    let items ← asIter operand
    let es ← exceptMap (fun item => get_filter_expr sc model f item) items
    pure (and_ es)
  else if op = "$not" then do
    let e ← get_filter_expr sc model f operand
    pure (not_ e)
  else do
    -- attribute: split the dotted chain, right-fold it into nested
    -- single-key criteria, compile against the resolved attribute
    let chain := splitDots op
    let attr ← pygetattr sc model (chain.headD "")
    let folded := (chain.drop 1).foldr (fun ck acc => JVal.obj [(ck, acc)])
      (objOrEq operand)
    get_attribute_filter_expr sc f attr folded (chain.headD "")
termination_by 3 * f + 2

/-- Embedding of `get_filter_expr(model, criteria)` (`query.py` lines 141-174). -/
def get_filter_expr (sc : Schema) (model : String) : Nat → JVal → Except String Expr
  | 0, _ => .error fuelMsg
  | f + 1, criteria => do
    let entries ← asObj criteria
    let es ← exceptMap (fun kv => gfeEntry sc model f kv.1 kv.2) entries
    pure (and_ es)
termination_by fuel _ => 3 * fuel

/-- One `for op, operand in criteria.items()` iteration of
`get_attribute_filter_expr` (`query.py` lines 73-136). -/
def gafeEntry (sc : Schema) (f : Nat) (attrib : Attrib) (key : String)
    (op : String) (operand : JVal) : Except String Expr :=
  if isPrimOp op then
    match attrib with
    | .col cls k => .ok (.prim op (.col cls k) operand)
    | .countOf k => .ok (.prim op (.countOf k) operand)
    | .rel _ _ _ _ =>
      .error ("ValueError: cant use primitive operator " ++ op ++ " on " ++ key ++
        ": not a column")
  else if isRelOp op then
    match attrib with
    | .rel _cls k dir target =>
      if dir = Dir.onetomany ∨ dir = Dir.manytomany then
        if op = "$any" then do
          let sub ← get_filter_expr sc target f operand
          pure (.anyE k sub)
        else if op = "$all" then do
          let sub ← get_filter_expr sc target f operand
          pure (not_ (.anyE k (not_ sub)))
        else
          lengthOperator sc f k operand
      else
        .error ("ValueError: cant use " ++ op ++ " operator on " ++ key ++
          ": not a *-to-many relation nor association proxy")
    | .col _ _ =>
      .error ("ValueError: cant use " ++ op ++ " operator on " ++ key ++
        ": not a *-to-many relation nor association proxy")
    | .countOf _ => .error "AttributeError: property"
  else if op = "$or" then do
    let items ← asIter operand
    let es ← exceptMap (fun item => get_attribute_filter_expr sc f attrib item key) items
    pure (or_ es)
  else if op = "$and" then do
    let items ← asIter operand
    let es ← exceptMap (fun item => get_attribute_filter_expr sc f attrib item key) items
    pure (and_ es)
  else if op = "$not" then do
    let e ← get_attribute_filter_expr sc f attrib operand key
    pure (not_ e)
  else do
    -- subfield: requires a many-to-one relationship, compiles to a
    -- correlated existence check over the join
    let chain := splitDots op
    let field := chain.headD ""
    match attrib with
    | .rel _cls k dir target =>
      if dir = Dir.manytoone then do
        let attr ← pygetattr sc target field
        let folded := (chain.drop 1).foldr (fun ck acc => JVal.obj [(ck, acc)])
          (objOrEq operand)
        let sub ← get_attribute_filter_expr sc f attr folded field
        pure (.existsE k target sub)
      else
        .error ("ValueError: cant get " ++ field ++ " subfield from " ++ key ++
          ": not a many-to-one relation")
    | .col _ _ =>
      .error ("ValueError: cant get " ++ field ++ " subfield from " ++ key ++
        ": not a many-to-one relation")
    | .countOf _ => .error "AttributeError: property"
termination_by 3 * f + 2

/-- Embedding of `length_operator(attr, criteria)` (`query.py` lines 27-37): compare
the related-row count, a scalar `ColumnElement`, against the criteria. -/
def lengthOperator (sc : Schema) (f : Nat) (relKey : String) (criteria : JVal) :
    Except String Expr :=
  get_attribute_filter_expr sc f (.countOf relKey) (objOrEq criteria)
    (relKey ++ "$length")
termination_by 3 * f + 1

/-- Embedding of `get_attribute_filter_expr(attribute, criteria, key)` (`query.py`
lines 68-138). -/
def get_attribute_filter_expr (sc : Schema) :
    Nat → Attrib → JVal → String → Except String Expr
  | 0, _, _, _ => .error fuelMsg
  | f + 1, attrib, criteria, key => do
    let entries ← asObj criteria
    let es ← exceptMap (fun kv => gafeEntry sc f attrib key kv.1 kv.2) entries
    pure (and_ es)
termination_by fuel _ _ _ => 3 * fuel

end

/-! ### Predicate semantics

An abstract database interpretation: a row type, the related rows reached
from a row through a named relationship attribute (used both by `any` and
by correlated `EXISTS` subqueries), and the truth value of a primitive
comparison at a row. -/

structure DB (ρ : Type) where
  related : String → ρ → List ρ
  primEval : String → Attrib → JVal → ρ → Bool

def evalExpr {ρ : Type} (db : DB ρ) : Expr → ρ → Bool
  | .prim op a v, r => db.primEval op a v r
  | .anyE k s, r => (db.related k r).any (fun r2 => evalExpr db s r2)
  | .notE e, r => !(evalExpr db e r)
  | .andE es, r => es.attach.all (fun ⟨e, _⟩ => evalExpr db e r)
  | .orE es, r => es.attach.any (fun ⟨e, _⟩ => evalExpr db e r)
  | .existsE k _t s, r => (db.related k r).any (fun r2 => evalExpr db s r2)
termination_by e _ => sizeOf e
decreasing_by
  all_goals simp_wf
  all_goals try omega
  all_goals rename_i h
  all_goals have := List.sizeOf_lt_of_mem h
  all_goals omega

/-- Success of an `Except` value as a `Bool` (for stating that compilation fails). -/
def exceptOk {α : Type} : Except String α → Bool
  | .ok _ => true
  | .error _ => false

/-! ### The ordering compiler (`query.py` lines 177-220) -/

/-- Embedding of `get_direction(order_by)`: strip a leading `-`/`+`; `order_by[0]` on
the empty string raises `IndexError`. -/
def get_direction (s : String) : Except String (String × Int) :=
  match s.data with
  | [] => .error "IndexError: string index out of range"
  | c :: rest =>
    if c = '-' then .ok (String.mk rest, -1)
    else if c = '+' then .ok (String.mk rest, 1)
    else .ok (s, 1)

/-- The `for i, field in enumerate(fields[1:])` loop of `get_order_by`:
each traversed segment must currently be a many-to-one relationship; an
alias of its target is joined and the next attribute resolved against
it. -/
def orderWalk (sc : Schema) : Attrib → List String → List (String × Attrib) →
    Except String (Attrib × List (String × Attrib))
  | attr, [], joins => .ok (attr, joins)
  | .rel cls key Dir.manytoone target, field :: rest, joins => do
    let a2 ← pygetattr sc target field
    orderWalk sc a2 rest (joins ++ [(target, Attrib.rel cls key Dir.manytoone target)])
  | _, _ :: _, _ => .error "ValueError: not a many-to-one relation"

/-- Processing of one ordering item inside `get_order_by`. -/
def orderItem (sc : Schema) (model : String)
    (acc : List (Attrib × Int) × List (String × Attrib)) (item : String) :
    Except String (List (Attrib × Int) × List (String × Attrib)) := do
  let p ← get_direction item
  let fields := splitDots p.1
  let attr0 ← pygetattr sc model (fields.headD "")
  let w ← orderWalk sc attr0 (fields.drop 1) acc.2
  match w.1 with
  | .col cls k => .ok (acc.1 ++ [(Attrib.col cls k, p.2)], w.2)
  | _ => .error "ValueError: not a column"

/-- Embedding of `get_order_by(model, order_by)` with the input already in list form
(the source wraps a single string into a one-element list). -/
def get_order_by (sc : Schema) (model : String) (order_by : List String) :
    Except String (List (Attrib × Int) × List (String × Attrib)) :=
  order_by.foldlM (orderItem sc model) ([], [])

/-- Specification-side helper for stating claims about paths: resolve a
chain of many-to-one relationship segments to the class it ends at. -/
def chainM2O (sc : Schema) : String → List String → Option String
  | cls, [] => some cls
  | cls, f :: fs =>
    match sc cls f with
    | some (.rel Dir.manytoone t) => chainM2O sc t fs
    | _ => none

/-! ### Relation metadata flags (`serialize.py` lines 121-181)

`serialize_relations` computes, per included relationship, the booleans
`m2m` (direction is `MANYTOMANY`), `m2o` (direction is `MANYTOONE`),
`o2m` (direction is `ONETOMANY`) and `o2o` (not `m2m` and the
relationship's `uselist` is `False`; `uselist` may be `None` before
mapper configuration, hence `Option Bool`). -/

structure RelFlags where
  m2m : Bool
  o2o : Bool
  m2o : Bool
  o2m : Bool
deriving DecidableEq, Repr

def relationFlags (direction : Dir) (uselist : Option Bool) : RelFlags :=
  let is_m2m := direction == Dir.manytomany
  let is_m2o := direction == Dir.manytoone
  let is_o2o := if is_m2m then false else uselist == some false
  { m2m := is_m2m, o2o := is_o2o, m2o := is_m2o,
    o2m := direction == Dir.onetomany }

/-! ### The relation-flattening loop of `serialize` (`serialize.py`
lines 84-102)

`serialize` first builds the scalar-field dict `ret`, then walks the
`relations` mapping, attaching one-to-many matches as lists and the
one-to-one match inline (popping the local join field).  The embedding
covers that loop, taking the already-built field dict as input.  Every
relations mapping fed to `serialize` is produced by
`serialize_relations(..., meta=True)`, so `_meta` is always present. -/

/-- The `_meta` record of a serialized relation. -/
structure Meta where
  pk : JVal
  fk : JVal
  fk_pair : JVal
  m2m : Bool
  o2o : Bool
  m2o : Bool
  o2m : Bool

/-- A serialized relation record as read by `serialize`: its `_items`
(serialized related entities) and `_meta`. -/
structure RelEntry where
  items : List AList
  meta : Meta

/-- Python `d.get(key)` where the key is an arbitrary decoded value (`meta['fk']`
can be a list of column names when the relationship has several local
columns; unhashable keys raise `TypeError`). -/
def pyGetJ (d : AList) (key : JVal) : Except String (Option JVal) :=
  match key with
  | .str s => .ok (dget d s)
  | .arr _ => .error "TypeError: unhashable type: list"
  | .obj _ => .error "TypeError: unhashable type: dict"
  | _ => .ok none

/-- Python `d.pop(key)`: `KeyError` when absent. -/
def pyPopJ (d : AList) (key : JVal) : Except String AList :=
  match key with
  | .str s => if (dget d s).isSome then .ok (dpop d s) else .error "KeyError"
  | .arr _ => .error "TypeError: unhashable type: list"
  | .obj _ => .error "TypeError: unhashable type: dict"
  | _ => .error "KeyError"

/-- Python `item.setdefault(k, []).append(rel_item)`. -/
def setdefaultAppend (item : AList) (k : String) (ri : AList) : Except String AList :=
  match dget item k with
  | none => .ok (dset item k (.arr [.obj ri]))
  | some (.arr l) => .ok (dset item k (.arr (l ++ [.obj ri])))
  | some _ => .error "AttributeError: append"

/-- One `for k, v in relations.items()` iteration of the flattening loop
in `serialize`. -/
def mergeRelOne (item : AList) (k : String) (v : RelEntry) : Except String AList :=
  let meta := v.meta
  if truthy meta.fk && truthy meta.fk_pair then
    if meta.o2m && !meta.o2o then
      v.items.foldlM (fun it ri => do
        let a ← pyGetJ it meta.fk
        let b ← pyGetJ ri meta.fk_pair
        if optPyEq a b then setdefaultAppend it k ri else pure it) item
    else if meta.o2o then
      v.items.foldlM (fun it ri => do
        let a ← pyGetJ it meta.fk
        let b ← pyGetJ ri meta.fk_pair
        if optPyEq a b then do
          let it' ← pyPopJ it meta.fk
          pure (dset it' k (.obj ri))
        else pure it) item
    else pure item
  else pure item

/-- The whole relation-flattening loop of `serialize` over the entity's
already-serialized scalar-field dict. -/
def mergeRelations (item : AList) (relations : List (String × RelEntry)) :
    Except String AList :=
  relations.foldlM (fun it kv => mergeRelOne it kv.1 kv.2) item

/-! ### The many-relation lifter (`serialize.py` lines 186-203) -/

/-- Generic association-list lookup/update (Python dict semantics, as for
`dget`/`dset`). -/
def alookup {β : Type} : List (String × β) → String → Option β
  | [], _ => none
  | (k', v) :: rest, k => if k' = k then some v else alookup rest k

def aset {β : Type} : List (String × β) → String → β → List (String × β)
  | [], k, v => [(k, v)]
  | (k', v') :: rest, k, v =>
    if k' = k then (k, v) :: rest else (k', v') :: aset rest k v

/-- The nested relation-record tree produced by `serialize_relations`:
per relation name, its serialized `_items`, `_meta`, and nested
`_relations`. -/
inductive RelNode : Type where
  | mk (items : List AList) (meta : Meta) (rels : List (String × RelNode)) : RelNode

def RelNode.items : RelNode → List AList
  | .mk i _ _ => i

def RelNode.meta : RelNode → Meta
  | .mk _ m _ => m

def RelNode.rels : RelNode → List (String × RelNode)
  | .mk _ _ r => r

/-- The lifter collects a relation iff `m2m or (m2o and not o2o)`. -/
def manyQual (m : Meta) : Bool := m.m2m || (m.m2o && !m.o2o)

/-- Python `if item not in vals: vals.append(item)` (Python `in` uses `==`, i.e.
full dict equality). -/
def addDedup (vals : List AList) (x : AList) : List AList :=
  if vals.any (fun v => dictEq v x) then vals else vals ++ [x]

def addAllDedup (vals : List AList) (xs : List AList) : List AList :=
  xs.foldl addDedup vals

/-- Python `vals = many_rels.setdefault(k, [])` followed by deduplicated
appends of `xs` (the mutation is visible through the dict). -/
def bucketAdd (acc : List (String × List AList)) (k : String) (xs : List AList) :
    List (String × List AList) :=
  aset acc k (addAllDedup ((alookup acc k).getD []) xs)

/-- Embedding of `get_many_relations` with the accumulating `many_rels` dict made
explicit. -/
def gmrAux (acc : List (String × List AList)) :
    List (String × RelNode) → List (String × List AList)
  | [] => acc
  | (k, .mk items meta rels) :: rest =>
    let acc1 := if manyQual meta then bucketAdd acc k items else acc
    let acc2 :=
      if rels.isEmpty then acc1
      else (gmrAux [] rels).foldl (fun a kv => bucketAdd a kv.1 kv.2) acc1
    gmrAux acc2 rest
termination_by l => sizeOf l
decreasing_by
  all_goals simp_wf
  all_goals omega

def get_many_relations (rels : List (String × RelNode)) : List (String × List AList) :=
  gmrAux [] rels

/-- Specification-side collector: every `(relation name, item)` pair of a
qualifying relation anywhere in the nested record tree, in traversal
order, without deduplication. -/
def collectQual : List (String × RelNode) → List (String × AList)
  | [] => []
  | (k, .mk items meta rels) :: rest =>
    (if manyQual meta then items.map (fun x => (k, x)) else []) ++
      collectQual rels ++ collectQual rest
termination_by l => sizeOf l
decreasing_by
  all_goals simp_wf
  all_goals omega

/-! ### The inclusion-mask resolver (`serialize.py` lines 319-342)

`get_include_mask` splits each path on the first dot, records dot-free
paths as bare leaves, groups the rest by first segment into a set of
suffixes, and recurses per group, overwriting any bare leaf recorded for
the same name.  Python set iteration order is unspecified; the embedding
uses first-insertion order as its canonical stand-in.  The recursion is
fuelled (suffixes strictly shrink, so `maskFuel` is always sufficient). -/

inductive Mask : Type where
  | mk (entries : List (String × Mask)) : Mask

def Mask.entries : Mask → List (String × Mask)
  | .mk e => e

/-- Python `s.split('.', 1)` on a string. -/
def splitFirstS (s : String) : Option (String × String) :=
  (splitFirstDot s.data).map (fun p => (String.mk p.1, String.mk p.2))

/-- Deduplicate keeping first occurrences (insertion order of a Python
dict built by repeated insertion), with the seen set explicit. -/
def firstDedupAux (seen : List String) : List String → List String
  | [] => []
  | x :: xs =>
    if x ∈ seen then firstDedupAux seen xs
    else x :: firstDedupAux (x :: seen) xs

def firstDedup (l : List String) : List String := firstDedupAux [] l

/-- The keys of `pre_mask` in insertion order. -/
def groupKeys (incl : List String) : List String :=
  firstDedup (incl.filterMap (fun item => (splitFirstS item).map Prod.fst))

/-- The suffix set `pre_mask[k]` (canonical first-insertion order). -/
def groupSuffixes (incl : List String) (k : String) : List String :=
  firstDedup (incl.filterMap (fun item =>
    match splitFirstS item with
    | some (k', suf) => if k' = k then some suf else none
    | none => none))

/-- Embedding of `get_include_mask` on explicit fuel. -/
def gimF : Nat → List String → Mask
  | 0, _ => Mask.mk []
  | f + 1, incl =>
    let m0 : List (String × Mask) := incl.foldl (fun m item =>
      match splitFirstS item with
      | none => aset m item (Mask.mk [])
      | some _ => m) []
    Mask.mk ((groupKeys incl).foldl
      (fun m k => aset m k (gimF f (groupSuffixes incl k))) m0)

/-- Total fuel bound: suffixes of an item are strictly shorter than the
item, so the summed lengths bound the recursion depth. -/
def maskFuel (incl : List String) : Nat :=
  (incl.map (fun s => s.length + 1)).sum

def get_include_mask (incl : List String) : Mask :=
  gimF (maskFuel incl) incl

/-! ### Sample schema and database used by witnesses -/

/-- A small schema: class `A` has scalar column `age`, many-to-one
relationship `owner` to `B`, one-to-many relationship `kids` to `B`;
class `B` has scalar columns `name` and `size`, and a many-to-one
relationship `boss` to `Cc`; class `Cc` has scalar column `rank`. -/
def sampleSchema : Schema := fun cls name =>
  if cls = "A" then
    if name = "age" then some .column
    else if name = "owner" then some (.rel Dir.manytoone "B")
    else if name = "kids" then some (.rel Dir.onetomany "B")
    else none
  else if cls = "B" then
    if name = "name" then some .column
    else if name = "size" then some .column
    else if name = "boss" then some (.rel Dir.manytoone "Cc")
    else none
  else if cls = "Cc" then
    if name = "rank" then some .column
    else none
  else none

/-- A degenerate database interpretation over unit rows. -/
def sampleDB : DB Unit where
  related := fun _ _ => []
  primEval := fun _ _ _ _ => false

/-!
## Claim theorems
-/

/-- A criteria document carrying a primitive-comparison or relationship
operator key at the document level: at the root, or directly inside an
`$and`/`$or` clause list, or inside a `$not` clause. -/
inductive BadTop : JVal → Prop where
  | here (kvs : List (String × JVal)) (op : String) (v : JVal)
      (hop : (isPrimOp op || isRelOp op) = true) (hmem : (op, v) ∈ kvs) :
      BadTop (JVal.obj kvs)
  | inAndOr (kvs : List (String × JVal)) (op : String) (ds : List JVal)
      (d : JVal) (hop : op = "$and" ∨ op = "$or")
      (hmem : (op, JVal.arr ds) ∈ kvs) (hd : d ∈ ds) (hbad : BadTop d) :
      BadTop (JVal.obj kvs)
  | inNot (kvs : List (String × JVal)) (v : JVal)
      (hmem : ("$not", v) ∈ kvs) (hbad : BadTop v) :
      BadTop (JVal.obj kvs)

/-- A small concrete record tree for the lifter: a many-to-many relation
`tags` whose nested records carry a many-to-many relation `subs`. -/
def sampleTree : List (String × RelNode) :=
  [("tags", RelNode.mk [[("id", JVal.int 1)]]
    ⟨JVal.null, JVal.null, JVal.null, true, false, false, false⟩
    [("subs", RelNode.mk [[("id", JVal.int 2)]]
      ⟨JVal.null, JVal.null, JVal.null, true, false, false, false⟩ [])])]

/-!
## Theorems
-/

theorem dget_dset_self (d : AList) (k : String) (v : JVal) :
    dget (dset d k v) k = some v := by
  induction d with
  | nil => simp [dset, dget]
  | cons hd tl ih =>
    obtain ⟨k', v'⟩ := hd
    by_cases h : k' = k
    · simp [dset, dget, h]
    · simp [dset, dget, h, ih]

theorem dget_dset_ne (d : AList) (k k' : String) (v : JVal) (h : k ≠ k') :
    dget (dset d k v) k' = dget d k' := by
  induction d with
  | nil => simp [dset, dget, h]
  | cons hd tl ih =>
    obtain ⟨k0, v0⟩ := hd
    by_cases h0 : k0 = k
    · simp [dset, dget, h0, h]
    · simp [dset, dget, h0, ih]

theorem dget_not_mem (d : AList) (k : String) (h : k ∉ d.map Prod.fst) :
    dget d k = none := by
  induction d with
  | nil => simp [dget]
  | cons hd tl ih =>
    obtain ⟨k0, v0⟩ := hd
    simp only [List.map_cons, List.mem_cons, not_or] at h
    have hk0 : ¬ k0 = k := fun hh => h.1 hh.symm
    simp [dget, hk0, ih h.2]

theorem dget_dpop_self (d : AList) (k : String) (hnd : (d.map Prod.fst).Nodup) :
    dget (dpop d k) k = none := by
  induction d with
  | nil => simp [dpop, dget]
  | cons hd tl ih =>
    obtain ⟨k0, v0⟩ := hd
    simp only [List.map_cons, List.nodup_cons] at hnd
    by_cases h0 : k0 = k
    · subst h0
      simp only [dpop, if_pos rfl]
      exact dget_not_mem tl k0 hnd.1
    · simp [dpop, dget, h0, ih hnd.2]

theorem dget_dpop_ne (d : AList) (k k' : String) (h : k ≠ k') :
    dget (dpop d k) k' = dget d k' := by
  induction d with
  | nil => simp [dpop, dget]
  | cons hd tl ih =>
    obtain ⟨k0, v0⟩ := hd
    by_cases h0 : k0 = k
    · subst h0
      have : ¬ k0 = k' := h
      simp [dpop, dget, this]
    · simp [dpop, dget, h0, ih]

/-! ### Splitting dotted paths

`op.split('.')` on Python strings, modelled character by character. -/

theorem splitChars_ne_nil (sep : Char) (cs : List Char) : splitChars sep cs ≠ [] := by
  induction cs with
  | nil => simp [splitChars]
  | cons c rest ih =>
    by_cases h : c = sep
    · simp [splitChars, h]
    · simp only [splitChars, if_neg h]
      rcases hr : splitChars sep rest with _ | ⟨g, gs⟩
      · simp
      · simp

theorem splitChars_no_sep (sep : Char) (cs : List Char) (h : sep ∉ cs) :
    splitChars sep cs = [cs] := by
  induction cs with
  | nil => simp [splitChars]
  | cons c rest ih =>
    simp only [List.mem_cons, not_or] at h
    have hc : ¬ c = sep := fun hh => h.1 hh.symm
    simp only [splitChars, if_neg hc, ih h.2]

theorem splitChars_append (sep : Char) (cs rest : List Char) (h : sep ∉ cs) :
    splitChars sep (cs ++ sep :: rest) = cs :: splitChars sep rest := by
  induction cs with
  | nil => simp [splitChars]
  | cons c cs' ih =>
    simp only [List.mem_cons, not_or] at h
    have hc : ¬ c = sep := fun hh => h.1 hh.symm
    simp only [List.cons_append, splitChars, if_neg hc, List.append_eq, ih h.2]

theorem string_mk_data (s : String) : String.mk s.data = s := rfl

theorem dotted_data_cons (f : String) (g : String) (rest : List String) :
    (dotted (f :: g :: rest)).data = f.data ++ '.' :: (dotted (g :: rest)).data := by
  show (f ++ "." ++ dotted (g :: rest)).data = _
  simp [String.data_append]

/-- Splitting a dotted join of dot-free segments recovers the segments. -/
theorem splitDots_dotted (fs : List String) (hne : fs ≠ [])
    (hnd : ∀ f ∈ fs, noDot f) : splitDots (dotted fs) = fs := by
  induction fs with
  | nil => exact absurd rfl hne
  | cons f rest ih =>
    cases rest with
    | nil =>
      have : noDot f := hnd f (by simp)
      simp [splitDots, dotted, splitChars_no_sep '.' f.data this]
    | cons g rest' =>
      have hf : noDot f := hnd f (by simp)
      have hrec : splitDots (dotted (g :: rest')) = g :: rest' :=
        ih (by simp) (fun x hx => hnd x (List.mem_cons_of_mem f hx))
      unfold splitDots at hrec ⊢
      rw [dotted_data_cons, splitChars_append '.' f.data _ hf]
      simp only [List.map_cons, hrec]

theorem splitDots_single (s : String) (h : noDot s) : splitDots s = [s] := by
  simp [splitDots, splitChars_no_sep '.' s.data h]

/-! ### Python equality on decoded values

Python `==` compares dicts by key set and per-key values, ignoring
insertion order, and lists pointwise.  (Numeric cross-type equalities such
as `True == 1` do not arise for serialized entities and are not modelled.) -/

theorem mem_zip_self {α : Type} {x y : α} {l : List α} (h : (x, y) ∈ l.zip l) :
    x = y := by
  induction l with
  | nil => simp [List.zip] at h
  | cons a l ih =>
    rw [List.zip_cons_cons, List.mem_cons] at h
    rcases h with h | h
    · cases h; rfl
    · exact ih h

theorem pyEq_refl_aux : ∀ (n : Nat) (a : JVal), sizeOf a ≤ n → pyEq a a = true := by
  intro n
  induction n with
  | zero =>
    intro a h
    exfalso
    cases a <;> simp only [JVal.null.sizeOf_spec, JVal.bool.sizeOf_spec,
      JVal.int.sizeOf_spec, JVal.str.sizeOf_spec, JVal.arr.sizeOf_spec,
      JVal.obj.sizeOf_spec] at h <;> omega
  | succ n ih =>
    intro a h
    cases a with
    | null => simp [pyEq]
    | bool b => simp [pyEq]
    | int i => simp [pyEq]
    | str s => simp [pyEq]
    | arr l =>
      rw [pyEq]
      simp only [beq_self_eq_true, Bool.true_and, List.all_eq_true]
      rintro ⟨⟨x, y⟩, hxy⟩ _
      have hx : x = y := mem_zip_self hxy
      subst hx
      have hmem : x ∈ l := (List.of_mem_zip hxy).1
      have hs : sizeOf x < sizeOf l := List.sizeOf_lt_of_mem hmem
      have hl : sizeOf (JVal.arr l) = 1 + sizeOf l := by simp
      exact ih x (by omega)
    | obj kvs =>
      rw [pyEq]
      simp only [List.all_eq_true]
      intro k _
      rcases hv : dget kvs k with _ | v
      · simp [hv]
      · have hs : sizeOf v < sizeOf kvs := sizeOf_dget hv
        have hl : sizeOf (JVal.obj kvs) = 1 + sizeOf kvs := by simp
        simp only [hv]
        exact ih v (by omega)

theorem pyEq_refl (a : JVal) : pyEq a a = true :=
  pyEq_refl_aux (sizeOf a) a le_rfl

theorem dictEq_refl (a : AList) : dictEq a a = true := pyEq_refl (.obj a)

theorem objOrEq_idem (v : JVal) : objOrEq (objOrEq v) = objOrEq v := by
  cases v <;> rfl

/-- Claim C9: The inclusion mask resolver applied to `["a", "b.c", "b.d"]`
returns the nested mask `{a: {}, b: {c: {}, d: {}}}`: paths are split on
the first dot, grouped by first segment, and suffix groups are resolved
recursively. -/
theorem C9_include_mask_roundtrip :
    get_include_mask ["a", "b.c", "b.d"] =
      Mask.mk [("a", Mask.mk []),
               ("b", Mask.mk [("c", Mask.mk []), ("d", Mask.mk [])])] := by
  rfl

/-- Claim C5: For every relationship direction and `uselist` value, the
computed cardinality flags `{m2m, o2o, m2o, o2m}` have exactly one flag
set, except when `o2o` is set (the code defines one-to-one as not
many-to-many with `uselist is False`, which also covers single-valued
many-to-one attributes), in which case `o2o` holds in addition to exactly
one of `m2o`/`o2m` and `m2m` is false. -/
theorem C5_cardinality_flags (d : Dir) (u : Option Bool) :
    ((relationFlags d u).o2o = false ∧
      [(relationFlags d u).m2m, (relationFlags d u).o2o,
        (relationFlags d u).m2o, (relationFlags d u).o2m].count true = 1) ∨
    ((relationFlags d u).o2o = true ∧ (relationFlags d u).m2m = false ∧
      [(relationFlags d u).m2m, (relationFlags d u).o2o,
        (relationFlags d u).m2o, (relationFlags d u).o2m].count true = 2 ∧
      [(relationFlags d u).m2o, (relationFlags d u).o2m].count true = 1) := by
  rcases u with _ | b
  · cases d <;> decide
  · cases d <;> cases b <;> decide

theorem list_any_false {ρ : Type} (l : List ρ) : l.any (fun _ => false) = false := by
  induction l <;> simp [*]

/-- Claim C1: For every to-many relationship attribute, the compiled `$all`
operator equals the double negation `not(any(not(subexpression)))`; in
particular, compiling `$all: {}` (the empty criteria document) yields a
predicate that is true for every parent row (any database interpretation,
any row — including parents whose related-row list is empty). -/
theorem C1_all_double_negation (sc : Schema) (cls key target keyp : String)
    (dir : Dir) (f : Nat) (C : JVal)
    (hdir : dir = Dir.onetomany ∨ dir = Dir.manytomany) :
    (get_attribute_filter_expr sc (f + 1) (.rel cls key dir target)
        (JVal.obj [("$all", C)]) keyp
      = (get_filter_expr sc target f C).map
          (fun s => Expr.notE (Expr.anyE key (Expr.notE s)))) ∧
    (get_attribute_filter_expr sc (f + 2) (.rel cls key dir target)
        (JVal.obj [("$all", JVal.obj [])]) keyp
      = .ok (Expr.notE (Expr.anyE key (Expr.notE (Expr.andE []))))) ∧
    (∀ (ρ : Type) (db : DB ρ) (r : ρ),
      evalExpr db (Expr.notE (Expr.anyE key (Expr.notE (Expr.andE [])))) r = true) := by
  have hentry : ∀ (g : Nat) (C' : JVal),
      gafeEntry sc g (.rel cls key dir target) keyp "$all" C'
        = (get_filter_expr sc target g C').map
            (fun s => Expr.notE (Expr.anyE key (Expr.notE s))) := by
    intro g C'
    rw [gafeEntry.eq_def]
    rw [if_neg (by decide : ¬ (isPrimOp "$all" = true))]
    rw [if_pos (by decide : isRelOp "$all" = true)]
    simp only [if_pos hdir]
    rw [if_neg (by decide : ¬ ("$all" = "$any"))]
    simp only [if_true]
    rcases hC : get_filter_expr sc target g C' with e | s <;>
      simp [hC, not_, Except.map, bind, Except.bind, pure, Except.pure]
  have hmain : ∀ (g : Nat) (C' : JVal),
      get_attribute_filter_expr sc (g + 1) (.rel cls key dir target)
          (JVal.obj [("$all", C')]) keyp
        = (get_filter_expr sc target g C').map
            (fun s => Expr.notE (Expr.anyE key (Expr.notE s))) := by
    intro g C'
    rw [get_attribute_filter_expr]
    rcases hC : get_filter_expr sc target g C' with e | s <;>
      simp [asObj, exceptMap, hentry, hC, Except.map, bind, Except.bind, and_,
        pure, Except.pure]
  refine ⟨hmain f C, ?_, ?_⟩
  · rw [hmain (f + 1) (JVal.obj [])]
    rw [get_filter_expr]
    simp [asObj, exceptMap, and_, Except.map, bind, Except.bind, pure, Except.pure]
  · intro ρ db r
    simp [evalExpr, List.attach, list_any_false]

theorem C1_witness :
    (get_attribute_filter_expr sampleSchema 1 (.rel "A" "kids" Dir.onetomany "B")
        (JVal.obj [("$all", JVal.obj [])]) "kids"
      = (get_filter_expr sampleSchema "B" 0 (JVal.obj [])).map
          (fun s => Expr.notE (Expr.anyE "kids" (Expr.notE s)))) ∧
    (get_attribute_filter_expr sampleSchema 2 (.rel "A" "kids" Dir.onetomany "B")
        (JVal.obj [("$all", JVal.obj [])]) "kids"
      = .ok (Expr.notE (Expr.anyE "kids" (Expr.notE (Expr.andE []))))) ∧
    evalExpr sampleDB (Expr.notE (Expr.anyE "kids" (Expr.notE (Expr.andE [])))) () = true := by
  obtain ⟨h1, h2, h3⟩ := C1_all_double_negation sampleSchema "A" "kids" "B" "kids"
    Dir.onetomany 0 (JVal.obj []) (Or.inl rfl)
  exact ⟨h1, h2, h3 Unit sampleDB ()⟩

/-- Compiling a single-entry criteria document is exactly the processing of
that entry (`and_` collapses a one-clause conjunction to the clause). -/
theorem gfe_singleton (sc : Schema) (model : String) (f : Nat)
    (op : String) (operand : JVal) :
    get_filter_expr sc model (f + 1) (JVal.obj [(op, operand)])
      = gfeEntry sc model f op operand := by
  rw [get_filter_expr]
  rcases h : gfeEntry sc model f op operand with e | s <;>
    simp [asObj, exceptMap, h, and_, bind, Except.bind, pure, Except.pure]

/-- Claim C3: For distinct field keys `a`, `b`, compiling `{a: X, b: Y}`
yields the same predicate as compiling `{$and: [{a: X}, {b: Y}]}`:
sibling document keys combine by implicit conjunction.  (The `$and` form
spends one extra fuel level for the explicit `$and` dispatch; both sides
then process the two entries at equal depth.) -/
theorem C3_implicit_conjunction (sc : Schema) (model : String) (f : Nat)
    (a b : String) (X Y : JVal) (hab : a ≠ b) :
    get_filter_expr sc model (f + 1) (JVal.obj [(a, X), (b, Y)])
      = get_filter_expr sc model (f + 2)
          (JVal.obj [("$and", JVal.arr [JVal.obj [(a, X)], JVal.obj [(b, Y)]])]) := by
  clear hab
  have hL : get_filter_expr sc model (f + 1) (JVal.obj [(a, X), (b, Y)])
      = (do
          let e1 ← gfeEntry sc model f a X
          let e2 ← gfeEntry sc model f b Y
          pure (and_ [e1, e2]) : Except String Expr) := by
    rw [get_filter_expr]
    rcases h1 : gfeEntry sc model f a X with e1 | s1 <;>
      rcases h2 : gfeEntry sc model f b Y with e2 | s2 <;>
        simp [asObj, exceptMap, h1, h2, bind, Except.bind, pure, Except.pure]
  have hA : gfeEntry sc model (f + 1) "$and"
        (JVal.arr [JVal.obj [(a, X)], JVal.obj [(b, Y)]])
      = (do
          let e1 ← gfeEntry sc model f a X
          let e2 ← gfeEntry sc model f b Y
          pure (and_ [e1, e2]) : Except String Expr) := by
    rw [gfeEntry.eq_def]
    rw [if_neg (by decide : ¬ ((isPrimOp "$and" || isRelOp "$and") = true))]
    rw [if_neg (by decide : ¬ ("$and" = "$or"))]
    rw [if_pos (rfl : "$and" = "$and")]
    rcases h1 : gfeEntry sc model f a X with e1 | s1 <;>
      rcases h2 : gfeEntry sc model f b Y with e2 | s2 <;>
        simp [asIter, exceptMap, gfe_singleton, h1, h2, bind, Except.bind,
          pure, Except.pure, and_]
  have hR : get_filter_expr sc model (f + 2)
        (JVal.obj [("$and", JVal.arr [JVal.obj [(a, X)], JVal.obj [(b, Y)]])])
      = (do
          let e1 ← gfeEntry sc model f a X
          let e2 ← gfeEntry sc model f b Y
          pure (and_ [e1, e2]) : Except String Expr) := by
    rw [get_filter_expr]
    rcases h1 : gfeEntry sc model f a X with e1 | s1 <;>
      rcases h2 : gfeEntry sc model f b Y with e2 | s2 <;>
        simp [asObj, exceptMap, hA, h1, h2, bind, Except.bind, pure,
          Except.pure, and_]
  rw [hL, hR]

theorem C3_witness :
    get_filter_expr sampleSchema "A" 1
        (JVal.obj [("age", JVal.int 1), ("name", JVal.int 2)])
      = get_filter_expr sampleSchema "A" 2
          (JVal.obj [("$and", JVal.arr [JVal.obj [("age", JVal.int 1)],
            JVal.obj [("name", JVal.int 2)]])]) :=
  C3_implicit_conjunction sampleSchema "A" 0 "age" "name" (JVal.int 1)
    (JVal.int 2) (by decide)

theorem not_op_facts (s : String) (h : isOpToken s = false) :
    isPrimOp s = false ∧ isRelOp s = false ∧
      s ≠ "$or" ∧ s ≠ "$and" ∧ s ≠ "$not" := by
  unfold isOpToken at h
  simp only [Bool.or_eq_false_iff] at h
  obtain ⟨⟨hp, hr⟩, hl⟩ := h
  refine ⟨hp, hr, ?_, ?_, ?_⟩ <;> rintro rfl <;> exact absurd hl (by decide)

theorem opToken_noDot (s : String) (h : '.' ∈ s.data) : isOpToken s = false := by
  cases hop : isOpToken s
  · rfl
  · exfalso
    unfold isOpToken isPrimOp isRelOp isLogicalOp at hop
    simp only [Bool.or_eq_true, decide_eq_true_eq, primOpNames, relOpNames,
      logicalOpNames, List.mem_cons, List.not_mem_nil, or_false] at hop
    rcases hop with ((rfl | rfl | rfl | rfl | rfl | rfl | rfl | rfl | rfl) |
      (rfl | rfl | rfl)) | (rfl | rfl | rfl) <;> exact absurd h (by decide)

/-- Single-entry attribute criteria collapse for
`get_attribute_filter_expr`. -/
theorem gafe_singleton (sc : Schema) (f : Nat) (attrib : Attrib)
    (key op : String) (operand : JVal) :
    get_attribute_filter_expr sc (f + 1) attrib (JVal.obj [(op, operand)]) key
      = gafeEntry sc f attrib key op operand := by
  rw [get_attribute_filter_expr]
  rcases h : gafeEntry sc f attrib key op operand with e | s <;>
    simp [asObj, exceptMap, h, and_, bind, Except.bind, pure, Except.pure]

/-- Reduction of a `get_attribute_filter_expr` entry whose key is a plain
(dot-free, non-operator) name: the subfield branch. -/
theorem gafeEntry_subfield_reduce (sc : Schema) (f : Nat) (attrib : Attrib)
    (keyp op : String) (operand : JVal)
    (hop : isOpToken op = false) (hnd : noDot op) :
    gafeEntry sc f attrib keyp op operand =
      (match attrib with
       | .rel _cls k dir target =>
         if dir = Dir.manytoone then do
           let attr ← pygetattr sc target op
           let sub ← get_attribute_filter_expr sc f attr (objOrEq operand) op
           pure (Expr.existsE k target sub)
         else
           .error ("ValueError: cant get " ++ op ++ " subfield from " ++ keyp ++
             ": not a many-to-one relation")
       | .col _ _ =>
         .error ("ValueError: cant get " ++ op ++ " subfield from " ++ keyp ++
           ": not a many-to-one relation")
       | .countOf _ => .error "AttributeError: property") := by
  obtain ⟨hp, hr, ho, ha, hn⟩ := not_op_facts op hop
  rw [gafeEntry.eq_def]
  rw [if_neg (by simp [hp] : ¬ (isPrimOp op = true))]
  rw [if_neg (by simp [hr] : ¬ (isRelOp op = true))]
  rw [if_neg ho, if_neg ha, if_neg hn]
  rw [splitDots_single op hnd]
  rfl

/-- The result of a plain-name entry depends on its operand only through
`objOrEq` (the dict-or-`{$eq: ...}` coercion). -/
theorem gafeEntry_operand_congr (sc : Schema) (f : Nat) (attrib : Attrib)
    (keyp op : String) (o1 o2 : JVal)
    (hop : isOpToken op = false) (hnd : noDot op)
    (hbase : objOrEq o1 = objOrEq o2) :
    gafeEntry sc f attrib keyp op o1 = gafeEntry sc f attrib keyp op o2 := by
  rw [gafeEntry_subfield_reduce sc f attrib keyp op o1 hop hnd,
    gafeEntry_subfield_reduce sc f attrib keyp op o2 hop hnd, hbase]

/-- Level-3 helper: at the leaf of the chain, a non-dict operand and its
`{$eq: ...}` coercion compile identically. -/
theorem gafe_leaf_wrap (sc : Schema) (f : Nat) (attrib : Attrib)
    (keyp c : String) (V : JVal)
    (hc : noDot c) (hnc : isOpToken c = false) :
    get_attribute_filter_expr sc f attrib (JVal.obj [(c, objOrEq V)]) keyp
      = get_attribute_filter_expr sc f attrib (JVal.obj [(c, V)]) keyp := by
  cases f with
  | zero => simp [get_attribute_filter_expr]
  | succ g =>
    rw [gafe_singleton, gafe_singleton]
    exact gafeEntry_operand_congr sc g attrib keyp c (objOrEq V) V hnc hc
      (objOrEq_idem V)

/-- Level-2 helper: one relationship step above the leaf, the nested
criteria with and without the `{$eq: ...}` coercion compile identically. -/
theorem gafe_nested_wrap (sc : Schema) (f : Nat) (attrib : Attrib)
    (keyp b c : String) (V : JVal)
    (hb : noDot b) (hnb : isOpToken b = false)
    (hc : noDot c) (hnc : isOpToken c = false) :
    get_attribute_filter_expr sc f attrib
        (JVal.obj [(b, JVal.obj [(c, objOrEq V)])]) keyp
      = get_attribute_filter_expr sc f attrib
          (JVal.obj [(b, JVal.obj [(c, V)])]) keyp := by
  cases f with
  | zero => simp [get_attribute_filter_expr]
  | succ g =>
    rw [gafe_singleton, gafe_singleton]
    rw [gafeEntry_subfield_reduce sc g attrib keyp b _ hnb hb,
      gafeEntry_subfield_reduce sc g attrib keyp b _ hnb hb]
    cases attrib with
    | col cls k => rfl
    | countOf k => rfl
    | rel cls k dir target =>
      by_cases hdir : dir = Dir.manytoone
      · subst hdir
        simp only [if_pos rfl]
        rcases hA : pygetattr sc target b with e | attr2
        · simp [hA, bind, Except.bind]
        · simp only [hA, bind, Except.bind]
          have : objOrEq (JVal.obj [(c, objOrEq V)]) = JVal.obj [(c, objOrEq V)] := rfl
          rw [this]
          have h2 : objOrEq (JVal.obj [(c, V)]) = JVal.obj [(c, V)] := rfl
          rw [h2]
          rw [gafe_leaf_wrap sc g attr2 b c V hc hnc]
      · simp only [if_neg hdir]

/-- Reduction of a `get_filter_expr` entry whose key is not an operator:
the attribute branch. -/
theorem gfeEntry_attr_reduce (sc : Schema) (model : String) (f : Nat)
    (op : String) (operand : JVal) (hop : isOpToken op = false) :
    gfeEntry sc model f op operand = (do
      let attr ← pygetattr sc model ((splitDots op).headD "")
      get_attribute_filter_expr sc f attr
        (((splitDots op).drop 1).foldr (fun ck acc => JVal.obj [(ck, acc)])
          (objOrEq operand))
        ((splitDots op).headD "")) := by
  obtain ⟨hp, hr, ho, ha, hn⟩ := not_op_facts op hop
  rw [gfeEntry.eq_def]
  rw [if_neg (by simp [hp, hr] : ¬ ((isPrimOp op || isRelOp op) = true))]
  rw [if_neg ho, if_neg ha, if_neg hn]

/-- Claim C2: For every schema, every value `V`, and every chain of plain
names `a`, `b` ending in plain name `c`, the flattened dotted criteria
`{a.b.c: V}` compiles to exactly the same result (success or failure) as
the nested form `{a: {b: {c: V}}}`, at every fuel level: the dotted chain
is right-folded into nested single-key criteria before compilation. -/
theorem C2_dotted_chain_assoc (sc : Schema) (model : String) (f : Nat)
    (a b c : String) (V : JVal)
    (ha : noDot a) (hb : noDot b) (hc : noDot c)
    (hna : isOpToken a = false) (hnb : isOpToken b = false)
    (hnc : isOpToken c = false) :
    get_filter_expr sc model f (JVal.obj [(dotted [a, b, c], V)])
      = get_filter_expr sc model f
          (JVal.obj [(a, JVal.obj [(b, JVal.obj [(c, V)])])]) := by
  have hkey : splitDots (dotted [a, b, c]) = [a, b, c] :=
    splitDots_dotted [a, b, c] (by simp)
      (by intro x hx
          simp only [List.mem_cons, List.not_mem_nil, or_false] at hx
          rcases hx with rfl | rfl | rfl
          · exact ha
          · exact hb
          · exact hc)
  have hdot : '.' ∈ (dotted [a, b, c]).data := by
    rw [dotted_data_cons]
    simp
  have hnk : isOpToken (dotted [a, b, c]) = false := opToken_noDot _ hdot
  cases f with
  | zero => simp [get_filter_expr]
  | succ g =>
    rw [gfe_singleton, gfe_singleton]
    rw [gfeEntry_attr_reduce sc model g _ V hnk,
      gfeEntry_attr_reduce sc model g a _ hna]
    rw [hkey, splitDots_single a ha]
    simp only [List.headD, List.drop, List.foldr]
    rcases hA : pygetattr sc model a with e | attr
    · simp [hA, bind, Except.bind]
    · simp only [hA, bind, Except.bind]
      have h2 : objOrEq (JVal.obj [(b, JVal.obj [(c, V)])])
          = JVal.obj [(b, JVal.obj [(c, V)])] := rfl
      rw [h2]
      exact gafe_nested_wrap sc g attr a b c V hb hnb hc hnc

theorem C2_witness :
    get_filter_expr sampleSchema "A" 4
        (JVal.obj [(dotted ["owner", "boss", "rank"], JVal.int 5)])
      = get_filter_expr sampleSchema "A" 4
          (JVal.obj [("owner", JVal.obj [("boss", JVal.obj [("rank", JVal.int 5)])])]) :=
  C2_dotted_chain_assoc sampleSchema "A" 4 "owner" "boss" "rank" (JVal.int 5)
    (by decide) (by decide) (by decide) (by decide) (by decide) (by decide)

theorem exceptMap_err {α β : Type} (g : α → Except String β) (l : List α)
    (h : ∃ x ∈ l, exceptOk (g x) = false) :
    exceptOk (exceptMap g l) = false := by
  induction l with
  | nil =>
    rcases h with ⟨x, hx, _⟩
    cases hx
  | cons y ys ih =>
    rcases h with ⟨x, hx, hgx⟩
    rcases List.mem_cons.mp hx with rfl | hmem
    · rcases hg : g x with e | s
      · simp [exceptMap, hg, exceptOk, bind, Except.bind]
      · rw [hg] at hgx
        simp [exceptOk] at hgx
    · rcases hg : g y with e | s
      · simp [exceptMap, hg, exceptOk, bind, Except.bind]
      · have hys := ih ⟨x, hmem, hgx⟩
        rcases hm : exceptMap g ys with e2 | s2
        · simp [exceptMap, hg, hm, bind, Except.bind, exceptOk]
        · rw [hm] at hys
          simp [exceptOk] at hys

theorem gfe_err_of_entry (sc : Schema) (model : String) (f : Nat)
    (kvs : List (String × JVal)) (op : String) (v : JVal)
    (hmem : (op, v) ∈ kvs)
    (herr : exceptOk (gfeEntry sc model f op v) = false) :
    exceptOk (get_filter_expr sc model (f + 1) (JVal.obj kvs)) = false := by
  rw [get_filter_expr]
  have hM := exceptMap_err (fun kv => gfeEntry sc model f kv.1 kv.2) kvs
    ⟨(op, v), hmem, herr⟩
  rcases hm : exceptMap (fun kv => gfeEntry sc model f kv.1 kv.2) kvs with e | s
  · simp [asObj, hm, bind, Except.bind, exceptOk]
  · rw [hm] at hM
    simp [exceptOk] at hM

/-- Claim C7: A criteria document carrying a primitive comparison or
relationship operator key at the document level (root, or directly inside
an `$and`/`$or`/`$not` clause) never compiles successfully, for any
schema, model and fuel. -/
theorem C7_top_level_operator_rejected (C : JVal) (h : BadTop C)
    (sc : Schema) (model : String) (f : Nat) :
    exceptOk (get_filter_expr sc model f C) = false := by
  induction h generalizing f with
  | here kvs op v hop hmem =>
    cases f with
    | zero => simp [get_filter_expr, exceptOk]
    | succ g =>
      refine gfe_err_of_entry sc model g kvs op v hmem ?_
      rw [gfeEntry.eq_def, if_pos hop]
      simp [exceptOk]
  | inAndOr kvs op ds d hop hmem hd hbad ih =>
    cases f with
    | zero => simp [get_filter_expr, exceptOk]
    | succ g =>
      refine gfe_err_of_entry sc model g kvs op (JVal.arr ds) hmem ?_
      have hMd := exceptMap_err (fun item => get_filter_expr sc model g item) ds
        ⟨d, hd, ih g⟩
      rcases hop with rfl | rfl
      · rw [gfeEntry.eq_def]
        rw [if_neg (by decide : ¬ ((isPrimOp "$and" || isRelOp "$and") = true))]
        rw [if_neg (by decide : ¬ ("$and" = "$or"))]
        rw [if_pos (rfl : "$and" = "$and")]
        rcases hm : exceptMap (fun item => get_filter_expr sc model g item) ds
          with e | s
        · simp [asIter, hm, bind, Except.bind, exceptOk]
        · rw [hm] at hMd
          simp [exceptOk] at hMd
      · rw [gfeEntry.eq_def]
        rw [if_neg (by decide : ¬ ((isPrimOp "$or" || isRelOp "$or") = true))]
        rw [if_pos (rfl : "$or" = "$or")]
        rcases hm : exceptMap (fun item => get_filter_expr sc model g item) ds
          with e | s
        · simp [asIter, hm, bind, Except.bind, exceptOk]
        · rw [hm] at hMd
          simp [exceptOk] at hMd
  | inNot kvs v hmem hbad ih =>
    cases f with
    | zero => simp [get_filter_expr, exceptOk]
    | succ g =>
      refine gfe_err_of_entry sc model g kvs "$not" v hmem ?_
      rw [gfeEntry.eq_def]
      rw [if_neg (by decide : ¬ ((isPrimOp "$not" || isRelOp "$not") = true))]
      rw [if_neg (by decide : ¬ ("$not" = "$or"))]
      rw [if_neg (by decide : ¬ ("$not" = "$and"))]
      rw [if_pos (rfl : "$not" = "$not")]
      have hv := ih g
      rcases hm : get_filter_expr sc model g v with e | s
      · simp [hm, bind, Except.bind, exceptOk]
      · rw [hm] at hv
        simp [exceptOk] at hv

theorem C7_witness :
    exceptOk (get_filter_expr sampleSchema "A" 3
      (JVal.obj [("$not", JVal.obj [("$in", JVal.arr [JVal.int 1])])])) = false :=
  C7_top_level_operator_rejected _
    (BadTop.inNot _ (JVal.obj [("$in", JVal.arr [JVal.int 1])]) (by simp)
      (BadTop.here _ "$in" (JVal.arr [JVal.int 1]) (by decide) (by simp)))
    sampleSchema "A" 3

/-- Claim C4: When the relation-flattening loop of `serialize` processes a
one-to-one relation record whose single related item's remote join value
matches the entity's local join value, the related item is attached
directly (as a single map, not a list) under the relation name, and the
entity's local join field is removed; every other field of the entity's
map is unchanged. -/
theorem C4_o2o_inline (item : AList) (k fkName p : String) (ri : AList)
    (meta : Meta) (jv jw : JVal)
    (hnd : (item.map Prod.fst).Nodup)
    (ho2o : meta.o2o = true)
    (hfk : meta.fk = JVal.str fkName) (hfkp : meta.fk_pair = JVal.str p)
    (hfne : fkName ≠ "") (hpne : p ≠ "") (hkf : k ≠ fkName)
    (hlocal : dget item fkName = some jv) (hremote : dget ri p = some jw)
    (hmatch : pyEq jv jw = true) :
    mergeRelations item [(k, ⟨[ri], meta⟩)]
        = .ok (dset (dpop item fkName) k (JVal.obj ri)) ∧
    dget (dset (dpop item fkName) k (JVal.obj ri)) k = some (JVal.obj ri) ∧
    dget (dset (dpop item fkName) k (JVal.obj ri)) fkName = none ∧
    (∀ g : String, g ≠ fkName → g ≠ k →
      dget (dset (dpop item fkName) k (JVal.obj ri)) g = dget item g) := by
  have hone : mergeRelOne item k ⟨[ri], meta⟩
      = .ok (dset (dpop item fkName) k (JVal.obj ri)) := by
    simp only [mergeRelOne, hfk, hfkp, ho2o]
    simp [truthy, hfne, hpne, List.foldlM, pyGetJ, pyPopJ, hlocal, hremote,
      optPyEq, hmatch, bind, Except.bind, pure, Except.pure]
  refine ⟨?_, dget_dset_self _ _ _, ?_, ?_⟩
  · simp [mergeRelations, List.foldlM, hone, bind, Except.bind, pure,
      Except.pure]
  · rw [dget_dset_ne _ _ _ _ hkf]
    exact dget_dpop_self item fkName hnd
  · intro g hgf hgk
    rw [dget_dset_ne _ _ _ _ (fun h => hgk h.symm)]
    exact dget_dpop_ne item fkName g (fun h => hgf h.symm)

theorem C4_witness :
    (mergeRelations [("id", JVal.int 1), ("owner_id", JVal.int 7)]
        [("owner", ⟨[[("id", JVal.int 7), ("name", JVal.str "ann")]],
          ⟨JVal.null, JVal.str "owner_id", JVal.str "id",
            false, true, true, false⟩⟩)]
      = .ok (dset (dpop [("id", JVal.int 1), ("owner_id", JVal.int 7)] "owner_id")
          "owner" (JVal.obj [("id", JVal.int 7), ("name", JVal.str "ann")]))) ∧
    (dget (dset (dpop [("id", JVal.int 1), ("owner_id", JVal.int 7)] "owner_id")
        "owner" (JVal.obj [("id", JVal.int 7), ("name", JVal.str "ann")])) "owner"
      = some (JVal.obj [("id", JVal.int 7), ("name", JVal.str "ann")])) ∧
    (dget (dset (dpop [("id", JVal.int 1), ("owner_id", JVal.int 7)] "owner_id")
        "owner" (JVal.obj [("id", JVal.int 7), ("name", JVal.str "ann")])) "owner_id"
      = none) ∧
    (dget (dset (dpop [("id", JVal.int 1), ("owner_id", JVal.int 7)] "owner_id")
        "owner" (JVal.obj [("id", JVal.int 7), ("name", JVal.str "ann")])) "id"
      = dget [("id", JVal.int 1), ("owner_id", JVal.int 7)] "id") := by
  obtain ⟨h1, h2, h3, h4⟩ := C4_o2o_inline
    [("id", JVal.int 1), ("owner_id", JVal.int 7)] "owner" "owner_id" "id"
    [("id", JVal.int 7), ("name", JVal.str "ann")]
    ⟨JVal.null, JVal.str "owner_id", JVal.str "id", false, true, true, false⟩
    (JVal.int 7) (JVal.int 7)
    (by decide) rfl rfl rfl (by decide) (by decide) (by decide)
    rfl rfl (pyEq_refl (JVal.int 7))
  exact ⟨h1, h2, h3, h4 "id" (by decide) (by decide)⟩

/-! Association-list and dedup lemmas for the inclusion-mask resolver. -/

theorem alookup_aset_self {β : Type} (m : List (String × β)) (k : String) (v : β) :
    alookup (aset m k v) k = some v := by
  induction m with
  | nil => simp [aset, alookup]
  | cons hd tl ih =>
    obtain ⟨k0, v0⟩ := hd
    by_cases h : k0 = k
    · simp [aset, alookup, h]
    · simp [aset, alookup, h, ih]

theorem alookup_aset_ne {β : Type} (m : List (String × β)) (k k' : String) (v : β)
    (h : k ≠ k') : alookup (aset m k v) k' = alookup m k' := by
  induction m with
  | nil => simp [aset, alookup, h]
  | cons hd tl ih =>
    obtain ⟨k0, v0⟩ := hd
    by_cases h0 : k0 = k
    · simp [aset, alookup, h0, h]
    · simp [aset, alookup, h0, ih]

theorem aset_ne_nil {β : Type} (m : List (String × β)) (k : String) (v : β) :
    aset m k v ≠ [] := by
  cases m with
  | nil => simp [aset]
  | cons hd tl =>
    obtain ⟨k0, v0⟩ := hd
    by_cases h : k0 = k <;> simp [aset, h]

theorem mem_firstDedupAux (xs : List String) :
    ∀ (seen : List String) (y : String),
      y ∈ firstDedupAux seen xs ↔ (y ∈ xs ∧ y ∉ seen) := by
  induction xs with
  | nil => intro seen y; simp [firstDedupAux]
  | cons x xs ih =>
    intro seen y
    by_cases hx : x ∈ seen
    · rw [firstDedupAux, if_pos hx, ih]
      constructor
      · rintro ⟨hy, hs⟩
        exact ⟨List.mem_cons_of_mem x hy, hs⟩
      · rintro ⟨hy, hs⟩
        rcases List.mem_cons.mp hy with rfl | hy'
        · exact absurd hx hs
        · exact ⟨hy', hs⟩
    · rw [firstDedupAux, if_neg hx]
      constructor
      · intro hy
        rcases List.mem_cons.mp hy with rfl | hy'
        · exact ⟨List.mem_cons_self y xs, hx⟩
        · rw [ih] at hy'
          refine ⟨List.mem_cons_of_mem x hy'.1, ?_⟩
          intro hs
          exact hy'.2 (List.mem_cons_of_mem x hs)
      · rintro ⟨hy, hs⟩
        rcases List.mem_cons.mp hy with rfl | hy'
        · exact List.mem_cons_self y _
        · by_cases hyx : y = x
          · subst hyx; exact List.mem_cons_self y _
          · refine List.mem_cons_of_mem x ?_
            rw [ih]
            refine ⟨hy', ?_⟩
            intro hsx
            rcases List.mem_cons.mp hsx with h | h
            · exact hyx h
            · exact hs h

theorem firstDedupAux_nodup (xs : List String) :
    ∀ seen : List String, (firstDedupAux seen xs).Nodup := by
  induction xs with
  | nil => intro seen; simp [firstDedupAux]
  | cons x xs ih =>
    intro seen
    by_cases hx : x ∈ seen
    · rw [firstDedupAux, if_pos hx]; exact ih seen
    · rw [firstDedupAux, if_neg hx]
      refine List.nodup_cons.mpr ⟨?_, ih (x :: seen)⟩
      intro hmem
      exact ((mem_firstDedupAux xs (x :: seen) x).mp hmem).2 (List.mem_cons_self x seen)

theorem mem_firstDedup (l : List String) (y : String) :
    y ∈ firstDedup l ↔ y ∈ l := by
  rw [firstDedup, mem_firstDedupAux]
  simp

theorem firstDedup_nodup (l : List String) : (firstDedup l).Nodup :=
  firstDedupAux_nodup l []

theorem foldl_aset_alookup_not_mem {β : Type} (F : String → β) (ks : List String) :
    ∀ (m : List (String × β)) (k : String), k ∉ ks →
      alookup (ks.foldl (fun m k' => aset m k' (F k')) m) k = alookup m k := by
  induction ks with
  | nil => intro m k _; rfl
  | cons k0 ks ih =>
    intro m k hk
    simp only [List.mem_cons, not_or] at hk
    rw [List.foldl_cons, ih _ k hk.2, alookup_aset_ne _ _ _ _ (fun h => hk.1 h.symm)]

theorem foldl_aset_alookup {β : Type} (F : String → β) (ks : List String) :
    ∀ (m : List (String × β)) (k : String), k ∈ ks → ks.Nodup →
      alookup (ks.foldl (fun m k' => aset m k' (F k')) m) k = some (F k) := by
  induction ks with
  | nil => intro m k hk _; cases hk
  | cons k0 ks ih =>
    intro m k hk hnd
    rw [List.nodup_cons] at hnd
    rcases List.mem_cons.mp hk with rfl | hk'
    · rw [List.foldl_cons, foldl_aset_alookup_not_mem F ks _ k hnd.1]
      exact alookup_aset_self m k (F k)
    · rw [List.foldl_cons]
      exact ih _ k hk' hnd.2

theorem foldl_aset_ne_nil {β : Type} (F : String → β) (ks : List String) :
    ∀ m : List (String × β), (m ≠ [] ∨ ks ≠ []) →
      ks.foldl (fun m k' => aset m k' (F k')) m ≠ [] := by
  induction ks with
  | nil =>
    intro m h
    rcases h with h | h
    · exact h
    · exact absurd rfl h
  | cons k0 ks ih =>
    intro m _
    rw [List.foldl_cons]
    exact ih _ (Or.inl (aset_ne_nil m k0 (F k0)))

theorem splitFirstDot_no_dot (cs : List Char) (h : '.' ∉ cs) :
    splitFirstDot cs = none := by
  induction cs with
  | nil => rfl
  | cons c rest ih =>
    simp only [List.mem_cons, not_or] at h
    have hc : ¬ c = '.' := fun hh => h.1 hh.symm
    simp [splitFirstDot, hc, ih h.2]

theorem splitFirstDot_append (cs rest : List Char) (h : '.' ∉ cs) :
    splitFirstDot (cs ++ '.' :: rest) = some (cs, rest) := by
  induction cs with
  | nil => simp [splitFirstDot]
  | cons c cs' ih =>
    simp only [List.mem_cons, not_or] at h
    have hc : ¬ c = '.' := fun hh => h.1 hh.symm
    simp [splitFirstDot, hc, ih h.2]

theorem data_append_dot (name rest : String) :
    (name ++ "." ++ rest).data = name.data ++ '.' :: rest.data := by
  simp [String.data_append]

theorem splitFirstS_join (name rest : String) (h : noDot name) :
    splitFirstS (name ++ "." ++ rest) = some (name, rest) := by
  rw [splitFirstS, data_append_dot, splitFirstDot_append name.data rest.data h]
  rfl

theorem mem_groupKeys (incl : List String) (name rest : String)
    (h : noDot name) (hmem : (name ++ "." ++ rest) ∈ incl) :
    name ∈ groupKeys incl := by
  rw [groupKeys, mem_firstDedup]
  refine List.mem_filterMap.mpr ⟨name ++ "." ++ rest, hmem, ?_⟩
  rw [splitFirstS_join name rest h]
  rfl

theorem mem_groupSuffixes (incl : List String) (name rest : String)
    (h : noDot name) (hmem : (name ++ "." ++ rest) ∈ incl) :
    rest ∈ groupSuffixes incl name := by
  rw [groupSuffixes, mem_firstDedup]
  refine List.mem_filterMap.mpr ⟨name ++ "." ++ rest, hmem, ?_⟩
  rw [splitFirstS_join name rest h]
  simp

theorem m0_fold_ne_nil (l : List String) :
    ∀ m : List (String × Mask),
      (m ≠ [] ∨ ∃ x ∈ l, splitFirstDot x.data = none) →
      l.foldl (fun m item =>
        match splitFirstS item with
        | none => aset m item (Mask.mk [])
        | some _ => m) m ≠ [] := by
  induction l with
  | nil =>
    intro m h
    rcases h with h | ⟨x, hx, _⟩
    · exact h
    · cases hx
  | cons y ys ih =>
    intro m h
    rw [List.foldl_cons]
    rcases hy : splitFirstS y with _ | p
    · -- y is dot-free: an aset happens
      refine ih _ (Or.inl ?_)
      exact aset_ne_nil m y (Mask.mk [])
    · rcases h with hm | ⟨x, hx, hxn⟩
      · exact ih _ (Or.inl hm)
      · rcases List.mem_cons.mp hx with rfl | hx'
        · rw [splitFirstS, hxn] at hy
          cases hy
        · exact ih _ (Or.inr ⟨x, hx', hxn⟩)

theorem gimF_ne_empty (g : Nat) (l : List String) (h : l ≠ []) :
    (gimF (g + 1) l).entries ≠ [] := by
  rw [gimF]
  show ((groupKeys l).foldl _ _) ≠ []
  rcases l with _ | ⟨x, xs⟩
  · exact absurd rfl h
  · rcases hx : splitFirstS x with _ | p
    · refine foldl_aset_ne_nil _ _ _ (Or.inl ?_)
      refine m0_fold_ne_nil (x :: xs) [] (Or.inr ⟨x, List.mem_cons_self x xs, ?_⟩)
      rw [splitFirstS] at hx
      rcases hsp : splitFirstDot x.data with _ | q
      · rfl
      · rw [hsp] at hx; cases hx
    · refine foldl_aset_ne_nil _ _ _ (Or.inr ?_)
      intro hgk
      have : p.1 ∈ groupKeys (x :: xs) := by
        rw [groupKeys, mem_firstDedup]
        exact List.mem_filterMap.mpr ⟨x, List.mem_cons_self x xs, by rw [hx]; rfl⟩
      rw [hgk] at this
      cases this

theorem maskFuel_ge (s : String) (l : List String) (h : s ∈ l) :
    s.length + 1 ≤ maskFuel l := by
  induction l with
  | nil => cases h
  | cons x xs ih =>
    rcases List.mem_cons.mp h with rfl | h'
    · rw [maskFuel]
      simp only [List.map_cons, List.sum_cons]
      omega
    · have := ih h'
      rw [maskFuel] at this ⊢
      simp only [List.map_cons, List.sum_cons]
      omega

/-- Claim C10: When the inclusion list contains both a bare relationship
name and a longer dotted path beginning with that name, the resolver
returns under that name exactly the recursively resolved mask of the
suffix group — which is non-empty — so the bare-leaf `{}` produced by the
shorter path is overwritten and not preserved as a separate leaf (keys of
the result are unique). -/
theorem C10_bare_leaf_overwritten (incl : List String) (name rest : String)
    (g : Nat) (hnd : noDot name)
    (hbare : name ∈ incl) (hdotted : (name ++ "." ++ rest) ∈ incl)
    (hfuel : maskFuel incl = g + 1) :
    alookup (get_include_mask incl).entries name
        = some (gimF g (groupSuffixes incl name)) ∧
    gimF g (groupSuffixes incl name) ≠ Mask.mk [] := by
  constructor
  · rw [get_include_mask, hfuel, gimF]
    show alookup ((groupKeys incl).foldl _ _) name = _
    exact foldl_aset_alookup (fun k => gimF g (groupSuffixes incl k))
      (groupKeys incl) _ name (mem_groupKeys incl name rest hnd hdotted)
      (firstDedup_nodup _)
  · have hlen : (name ++ "." ++ rest).length + 1 ≤ maskFuel incl :=
      maskFuel_ge _ incl hdotted
    have hlen2 : 2 ≤ (name ++ "." ++ rest).length + 1 := by
      have : (name ++ "." ++ rest).data.length = name.data.length + 1 + rest.data.length := by
        rw [data_append_dot]
        simp
        omega
      have hlchar : (name ++ "." ++ rest).length = (name ++ "." ++ rest).data.length := rfl
      omega
    have hg : 1 ≤ g := by omega
    obtain ⟨g', rfl⟩ : ∃ g', g = g' + 1 := ⟨g - 1, by omega⟩
    have hne : groupSuffixes incl name ≠ [] := by
      intro hnil
      have := mem_groupSuffixes incl name rest hnd hdotted
      rw [hnil] at this
      cases this
    have := gimF_ne_empty g' (groupSuffixes incl name) hne
    intro hcontra
    rw [hcontra] at this
    exact this rfl

theorem C10_witness :
    alookup (get_include_mask ["b", "b.c"]).entries "b"
        = some (gimF 5 (groupSuffixes ["b", "b.c"] "b")) ∧
    gimF 5 (groupSuffixes ["b", "b.c"] "b") ≠ Mask.mk [] :=
  C10_bare_leaf_overwritten ["b", "b.c"] "b" "c" 5 (by decide)
    (by simp) (by simp) (by decide)

/-! Lemmas for the ordering compiler. -/

theorem get_direction_of_head (s : String) (hne : s.data ≠ [])
    (hh : ∀ ch, s.data.head? = some ch → ch ≠ '-' ∧ ch ≠ '+') :
    get_direction s = .ok (s, 1) := by
  rcases hd : s.data with _ | ⟨c, rest⟩
  · exact absurd hd hne
  · obtain ⟨h1, h2⟩ := hh c (by rw [hd]; rfl)
    rw [get_direction, hd]
    simp [h1, h2]

theorem get_order_by_single (sc : Schema) (model p : String) :
    get_order_by sc model [p] = orderItem sc model ([], []) p := by
  rw [get_order_by]
  rcases h : orderItem sc model ([], []) p with e | acc <;>
    simp [List.foldlM, h, bind, Except.bind, pure, Except.pure]

/-- Walking a whole chain of many-to-one segments ending in a scalar
column succeeds, resolving the final column attribute. -/
theorem orderWalk_to_col (sc : Schema) (mids : List String) :
    ∀ (t0 ci lastF cls key : String) (joins : List (String × Attrib)),
      chainM2O sc t0 mids = some ci →
      sc ci lastF = some .column →
      ∃ joins', orderWalk sc (.rel cls key Dir.manytoone t0) (mids ++ [lastF]) joins
        = .ok (.col ci lastF, joins') := by
  induction mids with
  | nil =>
    intro t0 ci lastF cls key joins hchain hcol
    rw [chainM2O] at hchain
    cases hchain
    exact ⟨joins ++ [(t0, Attrib.rel cls key Dir.manytoone t0)],
      by simp [orderWalk, pygetattr, hcol, bind, Except.bind]⟩
  | cons m ms ih =>
    intro t0 ci lastF cls key joins hchain hcol
    rw [chainM2O] at hchain
    rcases hm : sc t0 m with _ | ak
    · rw [hm] at hchain; cases hchain
    · rw [hm] at hchain
      cases ak with
      | column => cases hchain
      | rel d t1 =>
        cases d with
        | manytoone =>
          obtain ⟨joins', hw⟩ := ih t1 ci lastF t0 m
            (joins ++ [(t0, Attrib.rel cls key Dir.manytoone t0)]) hchain hcol
          refine ⟨joins', ?_⟩
          rw [List.cons_append, orderWalk]
          simp [pygetattr, hm, bind, Except.bind, hw]
        | onetomany => cases hchain
        | manytomany => cases hchain

/-- Walking a chain that reaches a relationship that is not many-to-one,
with at least one segment still to traverse, fails. -/
theorem orderWalk_bad (sc : Schema) (mids : List String) :
    ∀ (t0 ci fbad nx cls key tb : String) (rest' : List String) (d : Dir)
      (joins : List (String × Attrib)),
      chainM2O sc t0 mids = some ci →
      sc ci fbad = some (.rel d tb) →
      d ≠ Dir.manytoone →
      exceptOk (orderWalk sc (.rel cls key Dir.manytoone t0)
        (mids ++ fbad :: nx :: rest') joins) = false := by
  induction mids with
  | nil =>
    intro t0 ci fbad nx cls key tb rest' d joins hchain hbad hdm
    rw [chainM2O] at hchain
    cases hchain
    rw [List.nil_append, orderWalk]
    cases d with
    | manytoone => exact absurd rfl hdm
    | onetomany => simp [pygetattr, hbad, bind, Except.bind, orderWalk, exceptOk]
    | manytomany => simp [pygetattr, hbad, bind, Except.bind, orderWalk, exceptOk]
  | cons m ms ih =>
    intro t0 ci fbad nx cls key tb rest' d joins hchain hbad hdm
    rw [chainM2O] at hchain
    rcases hm : sc t0 m with _ | ak
    · rw [hm] at hchain; cases hchain
    · rw [hm] at hchain
      cases ak with
      | column => cases hchain
      | rel d1 t1 =>
        cases d1 with
        | manytoone =>
          rw [List.cons_append, orderWalk]
          simp only [pygetattr, hm, bind, Except.bind]
          exact ih t1 ci fbad nx t0 m tb rest' d _ hchain hbad hdm
        | onetomany => cases hchain
        | manytomany => cases hchain

/-- Claim C8: For an ordering path of two or more dot-free segments (with no
leading direction prefix): if the leading segments up to some non-final
segment resolve as a many-to-one chain and that non-final segment resolves
to a relationship that is not many-to-one, the ordering compiler fails;
if every leading segment is many-to-one and the final segment is a scalar
column, it succeeds. -/
theorem C8_ordering_path (sc : Schema) (model : String) (fields : List String)
    (hlen : 2 ≤ fields.length)
    (hnd : ∀ s ∈ fields, noDot s)
    (hh : ∀ ch, (dotted fields).data.head? = some ch → ch ≠ '-' ∧ ch ≠ '+') :
    (∀ (pre : List String) (fbad nx : String) (post : List String)
       (ci : String) (d : Dir) (t : String),
       fields = pre ++ fbad :: nx :: post →
       chainM2O sc model pre = some ci →
       sc ci fbad = some (.rel d t) →
       d ≠ Dir.manytoone →
       exceptOk (get_order_by sc model [dotted fields]) = false) ∧
    (∀ (mids : List String) (lastF c : String),
       fields = mids ++ [lastF] →
       chainM2O sc model mids = some c →
       sc c lastF = some .column →
       exceptOk (get_order_by sc model [dotted fields]) = true) := by
  -- shared preamble: the ordering item parses with ascending direction and
  -- splits back into the segments
  obtain ⟨f0, rest, rfl⟩ : ∃ f0 rest, fields = f0 :: rest := by
    cases fields with
    | nil => simp at hlen
    | cons a b => exact ⟨a, b, rfl⟩
  obtain ⟨f1, rest', rfl⟩ : ∃ f1 rest', rest = f1 :: rest' := by
    cases rest with
    | nil => simp at hlen
    | cons a b => exact ⟨a, b, rfl⟩
  have hne : (dotted (f0 :: f1 :: rest')).data ≠ [] := by
    rw [dotted_data_cons]
    cases hf : f0.data <;> simp
  have hdirn : get_direction (dotted (f0 :: f1 :: rest')) =
      .ok (dotted (f0 :: f1 :: rest'), 1) := get_direction_of_head _ hne hh
  have hsplit : splitDots (dotted (f0 :: f1 :: rest')) = f0 :: f1 :: rest' :=
    splitDots_dotted _ (by simp) hnd
  have hitem : orderItem sc model ([], []) (dotted (f0 :: f1 :: rest'))
      = (do
          let attr0 ← pygetattr sc model f0
          let w ← orderWalk sc attr0 (f1 :: rest') []
          match w.1 with
          | .col cls k => Except.ok ([(Attrib.col cls k, (1 : Int))], w.2)
          | _ => .error "ValueError: not a column") := by
    rw [orderItem]
    rw [hdirn]
    simp only [bind, Except.bind]
    rw [hsplit]
    rfl
  constructor
  · intro pre fbad nx post ci d t hdec hchain hbad hdm
    rw [get_order_by_single, hitem]
    cases pre with
    | nil =>
      -- the very first segment is the offending relationship
      simp only [List.nil_append] at hdec
      cases hdec
      rw [chainM2O] at hchain
      cases hchain
      simp only [pygetattr, hbad, bind, Except.bind]
      rw [orderWalk.eq_def]
      cases d with
      | manytoone => exact absurd rfl hdm
      | onetomany => simp [exceptOk]
      | manytomany => simp [exceptOk]
    | cons p0 pre' =>
      simp only [List.cons_append] at hdec
      rw [List.cons.injEq] at hdec
      obtain ⟨h1, hrest⟩ := hdec
      subst h1
      rw [chainM2O] at hchain
      rcases hm : sc model f0 with _ | ak
      · rw [hm] at hchain; cases hchain
      · rw [hm] at hchain
        cases ak with
        | column => cases hchain
        | rel d1 t1 =>
          cases d1 with
          | manytoone =>
            simp only [pygetattr, hm, bind, Except.bind]
            rw [hrest]
            have := orderWalk_bad sc pre' t1 ci fbad nx model f0 t post d []
              hchain hbad hdm
            rcases hw : orderWalk sc (.rel model f0 Dir.manytoone t1)
                (pre' ++ fbad :: nx :: post) [] with e | w
            · simp [exceptOk]
            · rw [hw] at this
              simp [exceptOk] at this
          | onetomany => cases hchain
          | manytomany => cases hchain
  · intro mids lastF c hdec hchain hcol
    rw [get_order_by_single, hitem]
    cases mids with
    | nil =>
      exfalso
      rw [List.nil_append] at hdec
      cases hdec
    | cons m0 mids' =>
      simp only [List.cons_append] at hdec
      rw [List.cons.injEq] at hdec
      obtain ⟨h1, hrest⟩ := hdec
      subst h1
      rw [chainM2O] at hchain
      rcases hm : sc model f0 with _ | ak
      · rw [hm] at hchain; cases hchain
      · rw [hm] at hchain
        cases ak with
        | column => cases hchain
        | rel d1 t1 =>
          cases d1 with
          | manytoone =>
            simp only [pygetattr, hm, bind, Except.bind]
            rw [hrest]
            obtain ⟨joins', hw⟩ := orderWalk_to_col sc mids' t1 c lastF model f0 []
              hchain hcol
            rw [hw]
            simp [exceptOk]
          | onetomany => cases hchain
          | manytomany => cases hchain

theorem C8_witness :
    exceptOk (get_order_by sampleSchema "A" [dotted ["kids", "name"]]) = false ∧
    exceptOk (get_order_by sampleSchema "A" [dotted ["owner", "name"]]) = true := by
  constructor
  · exact (C8_ordering_path sampleSchema "A" ["kids", "name"] (by decide)
      (by intro s hs; fin_cases hs <;> decide)
      (by intro ch h
          rw [show (dotted ["kids", "name"]).data.head? = some 'k' from rfl] at h
          cases h
          decide)).1
      [] "kids" "name" [] "A" Dir.onetomany "B" rfl rfl rfl (by decide)
  · exact (C8_ordering_path sampleSchema "A" ["owner", "name"] (by decide)
      (by intro s hs; fin_cases hs <;> decide)
      (by intro ch h
          rw [show (dotted ["owner", "name"]).data.head? = some 'o' from rfl] at h
          cases h
          decide)).2
      ["owner"] "name" "B" rfl rfl rfl

/-! Lemmas about `pyEq`: characterisations and transitivity, needed for
the deduplication behaviour of the many-relation lifter. -/

theorem dget_some_of_mem (m : AList) (k : String) (h : k ∈ m.map Prod.fst) :
    ∃ v, dget m k = some v := by
  induction m with
  | nil => cases h
  | cons hd tl ih =>
    obtain ⟨k0, v0⟩ := hd
    by_cases h0 : k0 = k
    · exact ⟨v0, by simp [dget, h0]⟩
    · rcases List.mem_cons.mp h with h1 | h1
      · exact absurd h1.symm h0
      · obtain ⟨v, hv⟩ := ih h1
        exact ⟨v, by simp [dget, h0, hv]⟩

theorem mem_of_dget_some {m : AList} {k : String} {v : JVal}
    (h : dget m k = some v) : k ∈ m.map Prod.fst := by
  induction m with
  | nil => cases h
  | cons hd tl ih =>
    obtain ⟨k0, v0⟩ := hd
    by_cases h0 : k0 = k
    · subst h0; simp
    · rw [dget, if_neg h0] at h
      exact List.mem_cons_of_mem _ (ih h)

theorem pyEq_arr_iff (la lb : List JVal) :
    pyEq (.arr la) (.arr lb) = true ↔
      (la.length = lb.length ∧
        ∀ (i : Nat) (h1 : i < la.length) (h2 : i < lb.length),
          pyEq la[i] lb[i] = true) := by
  rw [pyEq]
  simp only [Bool.and_eq_true, beq_iff_eq, List.all_eq_true]
  constructor
  · rintro ⟨hlen, hall⟩
    refine ⟨hlen, fun i h1 h2 => ?_⟩
    have hz : (la[i], lb[i]) ∈ la.zip lb := by
      rw [List.mem_iff_getElem]
      refine ⟨i, ?_, ?_⟩
      · rw [List.length_zip]; omega
      · rw [List.getElem_zip]
    exact hall ⟨(la[i], lb[i]), hz⟩ (List.mem_attach _ _)
  · rintro ⟨hlen, hptw⟩
    refine ⟨hlen, ?_⟩
    rintro ⟨⟨x, y⟩, hxy⟩ _
    rw [List.mem_iff_getElem] at hxy
    obtain ⟨i, hi, hget⟩ := hxy
    rw [List.length_zip] at hi
    rw [List.getElem_zip] at hget
    obtain ⟨h1, h2⟩ := Prod.mk.injEq .. |>.mp hget
    subst h1
    subst h2
    exact hptw i (by omega) (by omega)

theorem pyEq_obj_iff (da db : AList) :
    pyEq (.obj da) (.obj db) = true ↔
      ∀ k, (k ∈ da.map Prod.fst ∨ k ∈ db.map Prod.fst) →
        optPyEq (dget da k) (dget db k) = true := by
  rw [pyEq]
  simp only [List.all_eq_true, List.mem_append]
  constructor
  · intro hall k hk
    have h := hall k hk
    split at h <;> rename_i heq1 heq2
    · rw [heq1, heq2]
      simpa [optPyEq] using h
    · rw [heq1, heq2]
      simp [optPyEq]
    · exact absurd h (by simp)
    · exact absurd h (by simp)
  · intro hall k hk
    have h := hall k hk
    split <;> rename_i heq1 heq2
    · rw [heq1, heq2] at h
      simpa [optPyEq] using h
    · rfl
    · rw [heq1, heq2] at h
      simpa [optPyEq] using h
    · rw [heq1, heq2] at h
      simpa [optPyEq] using h

theorem pyEq_null_left {b : JVal} (h : pyEq .null b = true) : b = .null := by
  cases b with
  | null => rfl
  | bool x => simp [pyEq.eq_def] at h
  | int x => simp [pyEq.eq_def] at h
  | str x => simp [pyEq.eq_def] at h
  | arr x => simp [pyEq.eq_def] at h
  | obj x => simp [pyEq.eq_def] at h

theorem pyEq_bool_left {v : Bool} {b : JVal} (h : pyEq (.bool v) b = true) :
    b = .bool v := by
  cases b with
  | null => simp [pyEq.eq_def] at h
  | bool x => simp [pyEq.eq_def] at h; rw [h]
  | int x => simp [pyEq.eq_def] at h
  | str x => simp [pyEq.eq_def] at h
  | arr x => simp [pyEq.eq_def] at h
  | obj x => simp [pyEq.eq_def] at h

theorem pyEq_int_left {v : Int} {b : JVal} (h : pyEq (.int v) b = true) :
    b = .int v := by
  cases b with
  | null => simp [pyEq.eq_def] at h
  | bool x => simp [pyEq.eq_def] at h
  | int x => simp [pyEq.eq_def] at h; rw [h]
  | str x => simp [pyEq.eq_def] at h
  | arr x => simp [pyEq.eq_def] at h
  | obj x => simp [pyEq.eq_def] at h

theorem pyEq_str_left {v : String} {b : JVal} (h : pyEq (.str v) b = true) :
    b = .str v := by
  cases b with
  | null => simp [pyEq.eq_def] at h
  | bool x => simp [pyEq.eq_def] at h
  | int x => simp [pyEq.eq_def] at h
  | str x => simp [pyEq.eq_def] at h; rw [h]
  | arr x => simp [pyEq.eq_def] at h
  | obj x => simp [pyEq.eq_def] at h

theorem pyEq_arr_left {la : List JVal} {b : JVal} (h : pyEq (.arr la) b = true) :
    ∃ lb, b = .arr lb := by
  cases b with
  | null => simp [pyEq.eq_def] at h
  | bool x => simp [pyEq.eq_def] at h
  | int x => simp [pyEq.eq_def] at h
  | str x => simp [pyEq.eq_def] at h
  | arr x => exact ⟨x, rfl⟩
  | obj x => simp [pyEq.eq_def] at h

theorem pyEq_obj_left {da : AList} {b : JVal} (h : pyEq (.obj da) b = true) :
    ∃ db, b = .obj db := by
  cases b with
  | null => simp [pyEq.eq_def] at h
  | bool x => simp [pyEq.eq_def] at h
  | int x => simp [pyEq.eq_def] at h
  | str x => simp [pyEq.eq_def] at h
  | arr x => simp [pyEq.eq_def] at h
  | obj x => exact ⟨x, rfl⟩

theorem pyEq_trans_aux :
    ∀ (n : Nat) (a b c : JVal), sizeOf a + sizeOf b + sizeOf c ≤ n →
      pyEq a b = true → pyEq b c = true → pyEq a c = true := by
  intro n
  induction n with
  | zero =>
    intro a b c h _ _
    exfalso
    have ha : 0 < sizeOf a := by cases a <;> simp_arith
    omega
  | succ n ih =>
    intro a b c hn hab hbc
    cases a with
    | null =>
      obtain rfl := pyEq_null_left hab
      exact hbc
    | bool v =>
      obtain rfl := pyEq_bool_left hab
      exact hbc
    | int v =>
      obtain rfl := pyEq_int_left hab
      exact hbc
    | str v =>
      obtain rfl := pyEq_str_left hab
      exact hbc
    | arr la =>
      obtain ⟨lb, rfl⟩ := pyEq_arr_left hab
      obtain ⟨lc, rfl⟩ := pyEq_arr_left hbc
      rw [pyEq_arr_iff] at hab hbc ⊢
      obtain ⟨hl1, hp1⟩ := hab
      obtain ⟨hl2, hp2⟩ := hbc
      refine ⟨hl1.trans hl2, fun i h1 h2 => ?_⟩
      have hib : i < lb.length := by omega
      have sa : sizeOf la[i] < sizeOf la := List.sizeOf_lt_of_mem (la.getElem_mem h1)
      have sb : sizeOf lb[i] < sizeOf lb := List.sizeOf_lt_of_mem (lb.getElem_mem hib)
      have sizec : sizeOf lc[i] < sizeOf lc := List.sizeOf_lt_of_mem (lc.getElem_mem h2)
      have hsz : sizeOf (JVal.arr la) = 1 + sizeOf la := by simp
      have hszb : sizeOf (JVal.arr lb) = 1 + sizeOf lb := by simp
      have hszc : sizeOf (JVal.arr lc) = 1 + sizeOf lc := by simp
      exact ih la[i] lb[i] lc[i] (by omega) (hp1 i h1 hib) (hp2 i hib h2)
    | obj da =>
      obtain ⟨db, rfl⟩ := pyEq_obj_left hab
      obtain ⟨dc, rfl⟩ := pyEq_obj_left hbc
      rw [pyEq_obj_iff] at hab hbc ⊢
      intro k hk
      by_cases hka : k ∈ da.map Prod.fst
      · obtain ⟨v, hv⟩ := dget_some_of_mem da k hka
        have h1 := hab k (Or.inl hka)
        rw [hv] at h1
        rcases hw : dget db k with _ | w
        · rw [hw] at h1
          simp [optPyEq] at h1
        · rw [hw] at h1
          have hkb : k ∈ db.map Prod.fst := mem_of_dget_some hw
          have h2 := hbc k (Or.inl hkb)
          rw [hw] at h2
          rcases hu : dget dc k with _ | u
          · rw [hu] at h2
            simp [optPyEq] at h2
          · rw [hu] at h2
            rw [hv]
            simp only [optPyEq] at h1 h2 ⊢
            have sv : sizeOf v < sizeOf da := sizeOf_dget hv
            have sw : sizeOf w < sizeOf db := sizeOf_dget hw
            have su : sizeOf u < sizeOf dc := sizeOf_dget hu
            have hsa : sizeOf (JVal.obj da) = 1 + sizeOf da := by simp
            have hsb : sizeOf (JVal.obj db) = 1 + sizeOf db := by simp
            have hsc : sizeOf (JVal.obj dc) = 1 + sizeOf dc := by simp
            exact ih v w u (by omega) h1 h2
      · have hkc : k ∈ dc.map Prod.fst := by
          rcases hk with hk | hk
          · exact absurd hk hka
          · exact hk
        obtain ⟨u, hu⟩ := dget_some_of_mem dc k hkc
        have h2 := hbc k (Or.inr hkc)
        rw [hu] at h2
        rcases hw : dget db k with _ | w
        · rw [hw] at h2
          simp [optPyEq] at h2
        · rw [hw] at h2
          have hkb : k ∈ db.map Prod.fst := mem_of_dget_some hw
          have h1 := hab k (Or.inr hkb)
          rw [hw, dget_not_mem da k hka] at h1
          simp [optPyEq] at h1

theorem pyEq_trans {a b c : JVal} (hab : pyEq a b = true) (hbc : pyEq b c = true) :
    pyEq a c = true :=
  pyEq_trans_aux (sizeOf a + sizeOf b + sizeOf c) a b c le_rfl hab hbc

theorem dictEq_trans {a b c : AList} (hab : dictEq a b = true)
    (hbc : dictEq b c = true) : dictEq a c = true :=
  pyEq_trans hab hbc

/-! Lemmas about the deduplicating buckets of the many-relation lifter. -/

theorem mem_addDedup {vals : List AList} {x y : AList}
    (h : x ∈ addDedup vals y) : x ∈ vals ∨ x = y := by
  unfold addDedup at h
  by_cases hc : vals.any (fun v => dictEq v y) = true
  · rw [if_pos hc] at h
    exact Or.inl h
  · rw [if_neg hc] at h
    rcases List.mem_append.mp h with h1 | h1
    · exact Or.inl h1
    · exact Or.inr (List.mem_singleton.mp h1)

theorem mem_addDedup_of {vals : List AList} {x : AList} (h : x ∈ vals)
    (y : AList) : x ∈ addDedup vals y := by
  unfold addDedup
  by_cases hc : vals.any (fun v => dictEq v y) = true
  · rw [if_pos hc]; exact h
  · rw [if_neg hc]; exact List.mem_append.mpr (Or.inl h)

theorem addDedup_witness (vals : List AList) {y x : AList}
    (hyx : dictEq y x = true) :
    ∃ z ∈ addDedup vals y, dictEq z x = true := by
  unfold addDedup
  by_cases hc : vals.any (fun v => dictEq v y) = true
  · rw [if_pos hc]
    obtain ⟨v, hv, hdv⟩ := List.any_eq_true.mp hc
    exact ⟨v, hv, dictEq_trans (by simpa using hdv) hyx⟩
  · rw [if_neg hc]
    exact ⟨y, List.mem_append.mpr (Or.inr (List.mem_singleton.mpr rfl)), hyx⟩

theorem addDedup_pairwise {vals : List AList} (y : AList)
    (hp : List.Pairwise (fun a b => dictEq a b = false) vals) :
    List.Pairwise (fun a b => dictEq a b = false) (addDedup vals y) := by
  unfold addDedup
  by_cases hc : vals.any (fun v => dictEq v y) = true
  · rw [if_pos hc]; exact hp
  · rw [if_neg hc]
    have hall : ∀ v ∈ vals, dictEq v y = false := by
      intro v hv
      by_contra hne
      exact hc (List.any_eq_true.mpr ⟨v, hv, by
        cases hd : dictEq v y
        · exact absurd hd hne
        · simp⟩)
    rw [List.pairwise_append]
    refine ⟨hp, List.pairwise_singleton _ _, ?_⟩
    intro a ha y' hy'
    obtain rfl := List.mem_singleton.mp hy'
    exact hall a ha

theorem addAllDedup_nil (vals : List AList) : addAllDedup vals [] = vals := rfl

theorem addAllDedup_cons (vals : List AList) (y : AList) (ys : List AList) :
    addAllDedup vals (y :: ys) = addAllDedup (addDedup vals y) ys := rfl

theorem mem_addAllDedup (xs : List AList) :
    ∀ (vals : List AList) (x : AList),
      x ∈ addAllDedup vals xs → x ∈ vals ∨ x ∈ xs := by
  induction xs with
  | nil =>
    intro vals x h
    exact Or.inl h
  | cons y ys ih =>
    intro vals x h
    rw [addAllDedup_cons] at h
    rcases ih _ x h with h1 | h1
    · rcases mem_addDedup h1 with h2 | rfl
      · exact Or.inl h2
      · exact Or.inr (List.mem_cons_self _ _)
    · exact Or.inr (List.mem_cons_of_mem _ h1)

theorem mem_addAllDedup_of (xs : List AList) :
    ∀ {vals : List AList} {x : AList}, x ∈ vals → x ∈ addAllDedup vals xs := by
  induction xs with
  | nil => intro vals x h; exact h
  | cons y ys ih =>
    intro vals x h
    rw [addAllDedup_cons]
    exact ih (mem_addDedup_of h y)

theorem addAllDedup_witness (xs : List AList) :
    ∀ (vals : List AList) {z x : AList}, z ∈ xs → dictEq z x = true →
      ∃ w ∈ addAllDedup vals xs, dictEq w x = true := by
  induction xs with
  | nil => intro vals z x h; cases h
  | cons y ys ih =>
    intro vals z x hz hzx
    rw [addAllDedup_cons]
    rcases List.mem_cons.mp hz with rfl | hz'
    · obtain ⟨w, hw, hwx⟩ := addDedup_witness vals hzx
      exact ⟨w, mem_addAllDedup_of ys hw, hwx⟩
    · exact ih _ hz' hzx

theorem addAllDedup_pairwise (xs : List AList) :
    ∀ {vals : List AList},
      List.Pairwise (fun a b => dictEq a b = false) vals →
      List.Pairwise (fun a b => dictEq a b = false) (addAllDedup vals xs) := by
  induction xs with
  | nil => intro vals h; exact h
  | cons y ys ih =>
    intro vals h
    rw [addAllDedup_cons]
    exact ih (addDedup_pairwise y h)

theorem bucketAdd_lookup_self (acc : List (String × List AList)) (k : String)
    (xs : List AList) :
    alookup (bucketAdd acc k xs) k
      = some (addAllDedup ((alookup acc k).getD []) xs) :=
  alookup_aset_self _ _ _

theorem bucketAdd_lookup_ne (acc : List (String × List AList)) (k k' : String)
    (xs : List AList) (h : k ≠ k') :
    alookup (bucketAdd acc k xs) k' = alookup acc k' :=
  alookup_aset_ne _ _ _ _ h

/-- Elements present in a bucket survive a `bucketAdd` (for any key). -/
theorem bucketAdd_grow (acc : List (String × List AList)) (k k' : String)
    (xs : List AList) {l0 : List AList} {x : AList}
    (hl : alookup acc k' = some l0) (hx : x ∈ l0) :
    ∃ l1, alookup (bucketAdd acc k xs) k' = some l1 ∧ x ∈ l1 := by
  by_cases hk : k = k'
  · subst hk
    rw [bucketAdd_lookup_self]
    refine ⟨_, rfl, ?_⟩
    rw [hl]
    exact mem_addAllDedup_of xs hx
  · rw [bucketAdd_lookup_ne acc k k' xs hk, hl]
    exact ⟨l0, rfl, hx⟩

/-- New elements in a bucket after `bucketAdd` come from the old bucket or
from the added list. -/
theorem bucketAdd_fwd (acc : List (String × List AList)) (k k' : String)
    (xs : List AList) {l1 : List AList} {x : AList}
    (hl : alookup (bucketAdd acc k xs) k' = some l1) (hx : x ∈ l1) :
    (∃ l0, alookup acc k' = some l0 ∧ x ∈ l0) ∨ (k' = k ∧ x ∈ xs) := by
  by_cases hk : k = k'
  · subst hk
    rw [bucketAdd_lookup_self] at hl
    cases hl
    rcases mem_addAllDedup xs _ x hx with h1 | h1
    · rcases ho : alookup acc k with _ | l0
      · rw [ho] at h1
        cases h1
      · rw [ho] at h1
        exact Or.inl ⟨l0, rfl, h1⟩
    · exact Or.inr ⟨rfl, h1⟩
  · rw [bucketAdd_lookup_ne acc k k' xs hk] at hl
    exact Or.inl ⟨l1, hl, hx⟩

/-- The operation `bucketAdd` preserves the pairwise-distinct invariant of every
bucket. -/
theorem bucketAdd_pairwise (acc : List (String × List AList)) (k : String)
    (xs : List AList)
    (hp : ∀ k' l, alookup acc k' = some l →
      List.Pairwise (fun a b => dictEq a b = false) l) :
    ∀ k' l, alookup (bucketAdd acc k xs) k' = some l →
      List.Pairwise (fun a b => dictEq a b = false) l := by
  intro k' l hl
  by_cases hk : k = k'
  · subst hk
    rw [bucketAdd_lookup_self] at hl
    cases hl
    refine addAllDedup_pairwise xs ?_
    rcases ho : alookup acc k with _ | l0
    · simp
    · simpa using hp k l0 ho
  · rw [bucketAdd_lookup_ne acc k k' xs hk] at hl
    exact hp k' l hl

/-! The `for rk, rv in new_rel.items()` merge fold of `get_many_relations`. -/

theorem mergeFold_grow (m : List (String × List AList)) :
    ∀ (acc : List (String × List AList)) (k : String) (l0 : List AList)
      (x : AList), alookup acc k = some l0 → x ∈ l0 →
      ∃ l1, alookup (m.foldl (fun a kv => bucketAdd a kv.1 kv.2) acc) k
          = some l1 ∧ x ∈ l1 := by
  induction m with
  | nil => intro acc k l0 x hl hx; exact ⟨l0, hl, hx⟩
  | cons kv m' ih =>
    intro acc k l0 x hl hx
    rw [List.foldl_cons]
    obtain ⟨l1, hl1, hx1⟩ := bucketAdd_grow acc kv.1 k kv.2 hl hx
    exact ih _ k l1 x hl1 hx1

theorem mergeFold_fwd (m : List (String × List AList)) :
    ∀ (acc : List (String × List AList)) (k : String) (l1 : List AList)
      (x : AList),
      alookup (m.foldl (fun a kv => bucketAdd a kv.1 kv.2) acc) k = some l1 →
      x ∈ l1 →
      (∃ l0, alookup acc k = some l0 ∧ x ∈ l0) ∨ (∃ l', (k, l') ∈ m ∧ x ∈ l') := by
  induction m with
  | nil => intro acc k l1 x hl hx; exact Or.inl ⟨l1, hl, hx⟩
  | cons kv m' ih =>
    intro acc k l1 x hl hx
    rw [List.foldl_cons] at hl
    rcases ih _ k l1 x hl hx with ⟨l0, hl0, hx0⟩ | ⟨l', hm, hx'⟩
    · rcases bucketAdd_fwd acc kv.1 k kv.2 hl0 hx0 with h1 | ⟨rfl, h2⟩
      · exact Or.inl h1
      · exact Or.inr ⟨kv.2, by simp, h2⟩
    · exact Or.inr ⟨l', List.mem_cons_of_mem kv hm, hx'⟩

theorem mergeFold_wit (m : List (String × List AList)) :
    ∀ (acc : List (String × List AList)) (k : String) (l' : List AList)
      (z x : AList), (k, l') ∈ m → z ∈ l' → dictEq z x = true →
      ∃ l w, alookup (m.foldl (fun a kv => bucketAdd a kv.1 kv.2) acc) k
          = some l ∧ w ∈ l ∧ dictEq w x = true := by
  induction m with
  | nil => intro acc k l' z x hm; cases hm
  | cons kv m' ih =>
    intro acc k l' z x hm hz hzx
    rw [List.foldl_cons]
    rcases List.mem_cons.mp hm with heq | hm'
    · cases heq
      obtain ⟨w, hw, hwx⟩ := addAllDedup_witness l' ((alookup acc k).getD []) hz hzx
      obtain ⟨l1, hl1, hw1⟩ := mergeFold_grow m' _ k _ w
        (bucketAdd_lookup_self acc k l') hw
      exact ⟨l1, w, hl1, hw1, hwx⟩
    · exact ih _ k l' z x hm' hz hzx

theorem mergeFold_pairwise (m : List (String × List AList)) :
    ∀ acc : List (String × List AList),
      (∀ k l, alookup acc k = some l →
        List.Pairwise (fun a b => dictEq a b = false) l) →
      ∀ k l, alookup (m.foldl (fun a kv => bucketAdd a kv.1 kv.2) acc) k
          = some l →
        List.Pairwise (fun a b => dictEq a b = false) l := by
  induction m with
  | nil => intro acc hp k l hl; exact hp k l hl
  | cons kv m' ih =>
    intro acc hp k l hl
    rw [List.foldl_cons] at hl
    exact ih _ (bucketAdd_pairwise acc kv.1 kv.2 hp) k l hl

theorem mem_of_alookup {β : Type} :
    ∀ {m : List (String × β)} {k : String} {v : β},
      alookup m k = some v → (k, v) ∈ m := by
  intro m
  induction m with
  | nil => intro k v h; cases h
  | cons kv m' ih =>
    intro k v h
    obtain ⟨k0, v0⟩ := kv
    by_cases h0 : k0 = k
    · subst h0
      rw [alookup, if_pos rfl] at h
      cases h
      exact List.mem_cons_self _ _
    · rw [alookup, if_neg h0] at h
      exact List.mem_cons_of_mem _ (ih h)

theorem mem_aset_keys {β : Type} (m : List (String × β)) (k : String) (v : β) :
    ∀ y, y ∈ (aset m k v).map Prod.fst ↔ (y ∈ m.map Prod.fst ∨ y = k) := by
  induction m with
  | nil => intro y; simp [aset]
  | cons kv m' ih =>
    intro y
    obtain ⟨k0, v0⟩ := kv
    by_cases h0 : k0 = k
    · subst h0
      rw [aset, if_pos rfl]
      simp only [List.map_cons, List.mem_cons]
      constructor
      · rintro (rfl | h)
        · exact Or.inr rfl
        · exact Or.inl (Or.inr h)
      · rintro ((rfl | h) | rfl)
        · exact Or.inl rfl
        · exact Or.inr h
        · exact Or.inl rfl
    · simp only [aset, if_neg h0, List.map_cons, List.mem_cons, ih]
      tauto

theorem aset_keys_nodup {β : Type} (m : List (String × β)) (k : String) (v : β)
    (h : (m.map Prod.fst).Nodup) : ((aset m k v).map Prod.fst).Nodup := by
  induction m with
  | nil => simp [aset]
  | cons kv m' ih =>
    obtain ⟨k0, v0⟩ := kv
    simp only [List.map_cons, List.nodup_cons] at h
    by_cases h0 : k0 = k
    · subst h0
      rw [aset, if_pos rfl]
      simp only [List.map_cons, List.nodup_cons]
      exact ⟨h.1, h.2⟩
    · simp only [aset, if_neg h0, List.map_cons, List.nodup_cons]
      refine ⟨?_, ih h.2⟩
      intro hmem
      rcases (mem_aset_keys m' k v k0).mp hmem with h1 | h1
      · exact h.1 h1
      · exact h0 h1

theorem alookup_of_mem_nodup {β : Type} :
    ∀ {m : List (String × β)} {k : String} {v : β},
      (m.map Prod.fst).Nodup → (k, v) ∈ m → alookup m k = some v := by
  intro m
  induction m with
  | nil => intro k v _ h; cases h
  | cons kv m' ih =>
    intro k v hnd h
    obtain ⟨k0, v0⟩ := kv
    simp only [List.map_cons, List.nodup_cons] at hnd
    rcases List.mem_cons.mp h with heq | hmem
    · cases heq
      rw [alookup, if_pos rfl]
    · by_cases h0 : k0 = k
      · subst h0
        exfalso
        exact hnd.1 (List.mem_map.mpr ⟨(k0, v), hmem, rfl⟩)
      · rw [alookup, if_neg h0]
        exact ih hnd.2 hmem

theorem mergeFold_keys_nodup (m : List (String × List AList)) :
    ∀ acc : List (String × List AList), ((acc.map Prod.fst).Nodup) →
      (((m.foldl (fun a kv => bucketAdd a kv.1 kv.2) acc).map Prod.fst).Nodup) := by
  induction m with
  | nil => intro acc h; exact h
  | cons kv m' ih =>
    intro acc h
    rw [List.foldl_cons]
    exact ih _ (aset_keys_nodup _ _ _ h)

theorem gmrAux_keys_nodup :
    ∀ (l : List (String × RelNode)) (acc : List (String × List AList)),
      ((acc.map Prod.fst).Nodup) → (((gmrAux acc l).map Prod.fst).Nodup) := by
  intro l
  induction l with
  | nil => intro acc h; rw [gmrAux]; exact h
  | cons kv rest ih =>
    obtain ⟨k0, node⟩ := kv
    obtain ⟨items, meta, rels⟩ := node
    intro acc h
    rw [gmrAux]
    have h1 : (((if manyQual meta = true then bucketAdd acc k0 items
        else acc).map Prod.fst).Nodup) := by
      by_cases hq : manyQual meta = true
      · rw [if_pos hq]; exact aset_keys_nodup _ _ _ h
      · rw [if_neg hq]; exact h
    by_cases hre : rels.isEmpty = true <;>
      simp only [hre, if_true, if_false, Bool.false_eq_true] <;>
        apply ih
    · exact h1
    · exact mergeFold_keys_nodup _ _ h1

theorem gmrAux_grow :
    ∀ (l : List (String × RelNode)) (acc : List (String × List AList))
      (k : String) (l0 : List AList) (x : AList),
      alookup acc k = some l0 → x ∈ l0 →
      ∃ l1, alookup (gmrAux acc l) k = some l1 ∧ x ∈ l1 := by
  intro l
  induction l with
  | nil =>
    intro acc k l0 x hl hx
    rw [gmrAux]
    exact ⟨l0, hl, hx⟩
  | cons kv rest ih =>
    obtain ⟨k0, node⟩ := kv
    obtain ⟨items, meta, rels⟩ := node
    intro acc k l0 x hl hx
    rw [gmrAux]
    have step1 : ∃ la, alookup (if manyQual meta = true then
        bucketAdd acc k0 items else acc) k = some la ∧ x ∈ la := by
      by_cases hq : manyQual meta = true
      · rw [if_pos hq]; exact bucketAdd_grow acc k0 k items hl hx
      · rw [if_neg hq]; exact ⟨l0, hl, hx⟩
    obtain ⟨la, hla, hxa⟩ := step1
    by_cases hre : rels.isEmpty = true <;>
      simp only [hre, if_true, if_false, Bool.false_eq_true]
    · exact ih _ k la x hla hxa
    · obtain ⟨lb, hlb, hxb⟩ := mergeFold_grow (gmrAux [] rels) _ k la x hla hxa
      exact ih _ k lb x hlb hxb

theorem gmrAux_pairwise :
    ∀ (l : List (String × RelNode)) (acc : List (String × List AList)),
      (∀ k lst, alookup acc k = some lst →
        List.Pairwise (fun a b => dictEq a b = false) lst) →
      ∀ k lst, alookup (gmrAux acc l) k = some lst →
        List.Pairwise (fun a b => dictEq a b = false) lst := by
  intro l
  induction l with
  | nil =>
    intro acc hp k lst hl
    rw [gmrAux] at hl
    exact hp k lst hl
  | cons kv rest ih =>
    obtain ⟨k0, node⟩ := kv
    obtain ⟨items, meta, rels⟩ := node
    intro acc hp k lst hl
    rw [gmrAux] at hl
    have hp1 : ∀ k' lst', alookup (if manyQual meta = true then
        bucketAdd acc k0 items else acc) k' = some lst' →
        List.Pairwise (fun a b => dictEq a b = false) lst' := by
      by_cases hq : manyQual meta = true
      · rw [if_pos hq]; exact bucketAdd_pairwise acc k0 items hp
      · rw [if_neg hq]; exact hp
    by_cases hre : rels.isEmpty = true
    · rw [if_pos hre] at hl
      exact ih _ hp1 k lst hl
    · rw [if_neg hre] at hl
      exact ih _ (mergeFold_pairwise (gmrAux [] rels) _ hp1) k lst hl

theorem mem_collectQual_head (k0 : String) (items : List AList) (meta : Meta)
    (rels rest : List (String × RelNode)) {x : AList}
    (hq : manyQual meta = true) (hx : x ∈ items) :
    (k0, x) ∈ collectQual ((k0, .mk items meta rels) :: rest) := by
  rw [collectQual]
  refine List.mem_append.mpr (Or.inl (List.mem_append.mpr (Or.inl ?_)))
  rw [if_pos hq]
  exact List.mem_map.mpr ⟨x, hx, rfl⟩

theorem mem_collectQual_rels (k0 : String) (items : List AList) (meta : Meta)
    (rels rest : List (String × RelNode)) {k : String} {x : AList}
    (h : (k, x) ∈ collectQual rels) :
    (k, x) ∈ collectQual ((k0, .mk items meta rels) :: rest) := by
  rw [collectQual]
  exact List.mem_append.mpr (Or.inl (List.mem_append.mpr (Or.inr h)))

theorem mem_collectQual_rest (k0 : String) (items : List AList) (meta : Meta)
    (rels rest : List (String × RelNode)) {k : String} {x : AList}
    (h : (k, x) ∈ collectQual rest) :
    (k, x) ∈ collectQual ((k0, .mk items meta rels) :: rest) := by
  rw [collectQual]
  exact List.mem_append.mpr (Or.inr h)

/-- Every element of a lifted bucket is a verbatim item of a qualifying
relation somewhere in the record tree. -/
theorem gmrAux_fwd :
    ∀ (acc : List (String × List AList)) (l : List (String × RelNode))
      (k : String) (lst : List AList) (x : AList),
      alookup (gmrAux acc l) k = some lst → x ∈ lst →
      (∃ l0, alookup acc k = some l0 ∧ x ∈ l0) ∨ (k, x) ∈ collectQual l := by
  intro acc l
  induction acc, l using gmrAux.induct with
  | case1 acc =>
    intro k lst x hl hx
    rw [gmrAux] at hl
    exact Or.inl ⟨lst, hl, hx⟩
  | case2 acc k0 items meta rels rest acc1 acc2 ih1 ih2 =>
    intro k lst x hl hx
    rw [gmrAux] at hl
    rcases ih2 k lst x hl hx with ⟨l2, hl2, hx2⟩ | hcol
    · -- came through acc2: split on the merge step and the items step
      have hacc1 : ∀ {l1 : List AList}, alookup (if manyQual meta = true then
            bucketAdd acc k0 items else acc) k = some l1 → x ∈ l1 →
          (∃ l0, alookup acc k = some l0 ∧ x ∈ l0) ∨
            (k, x) ∈ collectQual ((k0, .mk items meta rels) :: rest) := by
        intro l1 hl1 hx1
        by_cases hq : manyQual meta = true
        · rw [if_pos hq] at hl1
          rcases bucketAdd_fwd acc k0 k items hl1 hx1 with h1 | ⟨rfl, h2⟩
          · exact Or.inl h1
          · exact Or.inr (mem_collectQual_head _ items meta rels rest hq h2)
        · rw [if_neg hq] at hl1
          exact Or.inl ⟨l1, hl1, hx1⟩
      have h1eq : acc1 = if manyQual meta = true then bucketAdd acc k0 items
          else acc := rfl
      have h2eq : acc2 = if rels.isEmpty = true then acc1
          else (gmrAux [] rels).foldl (fun a kv => bucketAdd a kv.1 kv.2) acc1 := rfl
      by_cases hre : rels.isEmpty = true
      · rw [h2eq, if_pos hre, h1eq] at hl2
        exact hacc1 hl2 hx2
      · rw [h2eq, if_neg hre] at hl2
        rcases mergeFold_fwd (gmrAux [] rels) acc1 k l2 x hl2 hx2 with
          ⟨l1, hl1, hx1⟩ | ⟨l', hml, hxl⟩
        · rw [h1eq] at hl1
          exact hacc1 hl1 hx1
        · -- x came from the recursively lifted nested tree
          have hndk : (((gmrAux ([] : List (String × List AList)) rels).map
              Prod.fst).Nodup) := gmrAux_keys_nodup rels [] (by simp)
          have hlk : alookup (gmrAux [] rels) k = some l' :=
            alookup_of_mem_nodup hndk hml
          rcases ih1 k l' x hlk hxl with ⟨l0, h0, _⟩ | h
          · rw [alookup] at h0
            cases h0
          · exact Or.inr (mem_collectQual_rels k0 items meta rels rest h)
    · exact Or.inr (mem_collectQual_rest k0 items meta rels rest hcol)

/-- Every item of a qualifying relation anywhere in the record tree has a
representative, equal as a serialized map, in the lifted bucket of its
relation name. -/
theorem gmrAux_wit :
    ∀ (acc : List (String × List AList)) (l : List (String × RelNode))
      (k : String) (x : AList), (k, x) ∈ collectQual l →
      ∃ lst w, alookup (gmrAux acc l) k = some lst ∧ w ∈ lst ∧
        dictEq w x = true := by
  intro acc l
  induction acc, l using gmrAux.induct with
  | case1 acc =>
    intro k x hx
    rw [collectQual] at hx
    cases hx
  | case2 acc k0 items meta rels rest acc1 acc2 ih1 ih2 =>
    intro k x hx
    rw [gmrAux]
    rw [collectQual] at hx
    rcases List.mem_append.mp hx with hx1 | hxrest
    · rcases List.mem_append.mp hx1 with hxhead | hxrels
      · -- a direct item of this relation
        by_cases hq : manyQual meta = true
        · rw [if_pos hq] at hxhead
          obtain ⟨x', hx', heq⟩ := List.mem_map.mp hxhead
          obtain ⟨rfl, rfl⟩ := Prod.mk.injEq .. |>.mp heq
          -- the bucket for k0 now holds a representative of x
          obtain ⟨w, hw, hwx⟩ := addAllDedup_witness items
            ((alookup acc k0).getD []) hx' (dictEq_refl x')
          have hb : alookup (bucketAdd acc k0 items) k0
              = some (addAllDedup ((alookup acc k0).getD []) items) :=
            bucketAdd_lookup_self acc k0 items
          -- propagate through the merge step and the remaining siblings
          have hstep : ∃ lb, alookup (if rels.isEmpty = true then
                (if manyQual meta = true then bucketAdd acc k0 items else acc)
              else (gmrAux [] rels).foldl (fun a kv => bucketAdd a kv.1 kv.2)
                (if manyQual meta = true then bucketAdd acc k0 items else acc))
              k0 = some lb ∧ w ∈ lb := by
            by_cases hre : rels.isEmpty = true
            · rw [if_pos hre, if_pos hq]
              exact ⟨_, hb, hw⟩
            · rw [if_neg hre, if_pos hq]
              exact mergeFold_grow (gmrAux [] rels) _ k0 _ w hb hw
          obtain ⟨lb, hlb, hwb⟩ := hstep
          obtain ⟨lst, hlst, hwlst⟩ := gmrAux_grow rest _ k0 lb w hlb hwb
          exact ⟨lst, w, hlst, hwlst, hwx⟩
        · rw [if_neg hq] at hxhead
          cases hxhead
      · -- an item of the nested record tree
        have hne : rels ≠ [] := by
          intro hnil
          subst hnil
          rw [collectQual] at hxrels
          cases hxrels
        have hre : ¬ (rels.isEmpty = true) := by
          cases rels with
          | nil => exact absurd rfl hne
          | cons a b => simp [List.isEmpty]
        rw [if_neg hre]
        obtain ⟨lst', w', hl', hw', hwx'⟩ := ih1 k x hxrels
        have hml : (k, lst') ∈ gmrAux [] rels := mem_of_alookup hl'
        obtain ⟨lb, w, hlb, hwb, hwx⟩ := mergeFold_wit (gmrAux [] rels)
          (if manyQual meta = true then bucketAdd acc k0 items else acc)
          k lst' w' x hml hw' hwx'
        obtain ⟨lst, hlst, hwlst⟩ := gmrAux_grow rest _ k lb w hlb hwb
        exact ⟨lst, w, hlst, hwlst, hwx⟩
    · exact ih2 k x hxrest

/-- Claim C6: The many-relation lifter collects, under each relation name,
exactly the items of relations whose metadata satisfies
`m2m or (m2o and not o2o)`, walking every nested `_relations` record:
every element of a lifted bucket is a verbatim collected item, every
collected item has a representative equal to it as a serialized map
(Python `==`, order-insensitive on dicts), and no bucket contains two
items that are equal as serialized maps. -/
theorem C6_many_relation_lifter (rels : List (String × RelNode)) :
    (∀ (k : String) (l : List AList),
       alookup (get_many_relations rels) k = some l →
       List.Pairwise (fun x y => dictEq x y = false) l ∧
       ∀ x ∈ l, (k, x) ∈ collectQual rels) ∧
    (∀ (k : String) (x : AList), (k, x) ∈ collectQual rels →
       ∃ l y, alookup (get_many_relations rels) k = some l ∧ y ∈ l ∧
         dictEq y x = true) := by
  constructor
  · intro k l hl
    rw [get_many_relations] at hl
    constructor
    · refine gmrAux_pairwise rels [] ?_ k l hl
      intro k' lst h
      rw [alookup] at h
      cases h
    · intro x hx
      rcases gmrAux_fwd [] rels k l x hl hx with ⟨l0, h0, _⟩ | h
      · rw [alookup] at h0
        cases h0
      · exact h
  · intro k x hx
    rw [get_many_relations]
    exact gmrAux_wit [] rels k x hx

theorem C6_witness :
    (List.Pairwise (fun x y => dictEq x y = false) [[("id", JVal.int 1)]] ∧
      ∀ x ∈ [[("id", JVal.int 1)]], ("tags", x) ∈ collectQual sampleTree) ∧
    (∃ l y, alookup (get_many_relations sampleTree) "subs" = some l ∧ y ∈ l ∧
      dictEq y [("id", JVal.int 2)] = true) := by
  constructor
  · refine (C6_many_relation_lifter sampleTree).1 "tags" [[("id", JVal.int 1)]] ?_
    simp [sampleTree, get_many_relations, gmrAux, manyQual, bucketAdd,
      addAllDedup, addDedup, alookup, aset, dictEq, List.isEmpty]
  · refine (C6_many_relation_lifter sampleTree).2 "subs" [("id", JVal.int 2)] ?_
    simp [sampleTree, collectQual, manyQual]

end TRF
